import Mathlib

/-!
Verification of the schedule-extraction and goal-swing sensitivity system.

The development shallowly embeds the two Python source files:
 * `clean_and_sensitivity.py`: dataframe cleaning (`normalize_columns`,
   `coerce_types`, `infer_venue_and_clean_opponent`, `clean_filter`) and the
   sensitivity engine (`flipped`, `best_split`);
 * `ocr_and_parse.py`: text normalization (`clean`), the regex token
   recognizers (`RX_DATE_NUM`, `RX_DATE_NAME`, `RX_RES`, `RX_SCORE`), the
   record extractor (`parse_schedule_from_text`), and the post-parse cleanup
   performed by `main`.

Dataframes are embedded as lists of records; pandas column operations become
per-record functions mapped over the list.  Machine integers are `Int`/`Nat`
(Python integers are unbounded, so no wraparound modelling is needed).
-/

namespace Task5

/-! ## Sensitivity engine (`clean_and_sensitivity.py`, lines 60-73)

A cleaned game record as the sensitivity engine consumes it: the columns
`date`, `opponent`, `result`, `goals_for`, `goals_against` of the cleaned
dataframe.  Dates are abstract integers (a parsed timestamp). -/

structure Game where
  date : Int
  opponent : String
  result : String
  goals_for : Int
  goals_against : Int
deriving DecidableEq, Repr

/-- The boolean mask of `flipped` (line 64):
`(a['result']!='W') & (a['gf_adj'] > a['ga_adj'])` where
`gf_adj = goals_for + gf_delta` and `ga_adj = (goals_against - ga_delta).clip(lower=0)`. -/
def flipMask (gf_delta ga_delta : Int) (g : Game) : Bool :=
  (g.result != "W") && decide (max (g.goals_against - ga_delta) 0 < g.goals_for + gf_delta)

/-- The columns `['date','opponent','goals_for','goals_against']` selected by
`flipped` for its returned frame (line 65). -/
structure FlipRow where
  date : Int
  opponent : String
  goals_for : Int
  goals_against : Int
deriving DecidableEq, Repr

/-- `flipped(df, gf_delta, ga_delta)` (lines 60-65): the rows of `df` whose
mask holds, projected to the four reported columns. -/
def flipped (df : List Game) (gf_delta ga_delta : Int) : List FlipRow :=
  (df.filter (flipMask gf_delta ga_delta)).map
    (fun g => ⟨g.date, g.opponent, g.goals_for, g.goals_against⟩)

/-- `len(flipped(df, gf_delta, ga_delta))`, the flip count used throughout. -/
def flip_count (df : List Game) (gf_delta ga_delta : Int) : Nat :=
  (flipped df gf_delta ga_delta).length

/-- One iteration of the loop in `best_split` (lines 69-72):
`f = len(flipped(df, gf_delta=k, ga_delta=d-k)); if f > best[0]: best = (f,k,d-k)`. -/
def bsStep (df : List Game) (d : Nat) (best : Nat × Nat × Nat) (k : Nat) :
    Nat × Nat × Nat :=
  let f := flip_count df (k : Int) ((d - k : Nat) : Int)
  if best.1 < f then (f, k, d - k) else best

/-- `best_split(df, d)` (lines 67-73): fold of `bsStep` over `k in range(d+1)`
starting from `best = (0,0,0)`; the triple is `(flips, gf_delta, ga_delta)`. -/
def best_split (df : List Game) (d : Nat) : Nat × Nat × Nat :=
  (List.range (d + 1)).foldl (bsStep df d) (0, 0, 0)

/-- The loop of `best_split` stopped after the first `n` values of `k`. -/
def bsAux (df : List Game) (d n : Nat) : Nat × Nat × Nat :=
  (List.range n).foldl (bsStep df d) (0, 0, 0)

theorem best_split_eq_bsAux (df : List Game) (d : Nat) :
    best_split df d = bsAux df d (d + 1) := rfl

/-- Losses whose recorded score already contradicts the label
(`goals_for > goals_against` yet `result = L`). -/
def contradictingLosses (df : List Game) : Nat :=
  (df.filter (fun g => (g.result == "L") && decide (g.goals_against < g.goals_for))).length

/-- `filter` length is monotone under pointwise implication of the predicates
on members of the list. -/
theorem length_filter_le_of_imp {α : Type} {p q : α → Bool} :
    ∀ l : List α, (∀ a ∈ l, p a = true → q a = true) →
      (l.filter p).length ≤ (l.filter q).length := by
  intro l
  induction l with
  | nil => intro _; simp
  | cons a t ih =>
    intro h
    have ht : ∀ b ∈ t, p b = true → q b = true := fun b hb => h b (List.mem_cons_of_mem a hb)
    by_cases hp : p a = true
    · have hq : q a = true := h a (List.mem_cons_self a t) hp
      simp only [List.filter, hp, hq]
      exact Nat.succ_le_succ (ih ht)
    · have hp' : p a = false := Bool.eq_false_iff.mpr hp
      simp only [List.filter, hp']
      by_cases hq : q a = true
      · simp only [hq]
        exact Nat.le_succ_of_le (ih ht)
      · have hq' : q a = false := Bool.eq_false_iff.mpr hq
        simp only [hq']
        exact ih ht

theorem flip_count_eq_filter_length (df : List Game) (gfd gad : Int) :
    flip_count df gfd gad = (df.filter (flipMask gfd gad)).length := by
  simp [flip_count, flipped]

theorem flip_count_mono_of_imp (df : List Game) (a b c e : Int)
    (h : ∀ g : Game, flipMask a b g = true → flipMask c e g = true) :
    flip_count df a b ≤ flip_count df c e := by
  rw [flip_count_eq_filter_length, flip_count_eq_filter_length]
  exact length_filter_le_of_imp df (fun g _ => h g)

/-- Invariant of the `best_split` loop after processing `k = 0, ..., n-1`:
the accumulator is `(0,0,0)` while no split has produced a positive flip
count, it dominates every processed flip count, and when positive it records
the first (hence least) `k` attaining the running maximum. -/
theorem bsAux_spec (df : List Game) (d : Nat) : ∀ n : Nat,
    ((bsAux df d n).1 = 0 → bsAux df d n = (0, 0, 0))
    ∧ (∀ j, j < n → flip_count df (j : Int) ((d - j : Nat) : Int) ≤ (bsAux df d n).1)
    ∧ (0 < (bsAux df d n).1 →
        ∃ k, k < n
          ∧ bsAux df d n = (flip_count df (k : Int) ((d - k : Nat) : Int), k, d - k)
          ∧ ∀ j, j < k →
              flip_count df (j : Int) ((d - j : Nat) : Int)
                < flip_count df (k : Int) ((d - k : Nat) : Int)) := by
  intro n
  induction n with
  | zero =>
    refine ⟨fun _ => rfl, fun j hj => absurd hj (Nat.not_lt_zero j), fun h => absurd h (by simp [bsAux])⟩
  | succ n ih =>
    obtain ⟨ih0, ihle, ihpos⟩ := ih
    have hstep : bsAux df d (n + 1) = bsStep df d (bsAux df d n) n := by
      unfold bsAux
      rw [List.range_succ, List.foldl_append, List.foldl_cons, List.foldl_nil]
    by_cases hlt : (bsAux df d n).1 < flip_count df (n : Int) ((d - n : Nat) : Int)
    · have hb : bsAux df d (n + 1) = (flip_count df (n : Int) ((d - n : Nat) : Int), n, d - n) := by
        rw [hstep]; unfold bsStep; simp only [hlt, if_pos]
      refine ⟨?_, ?_, ?_⟩
      · intro h0
        rw [hb] at h0
        simp only at h0
        omega
      · intro j hj
        rw [hb]
        rcases Nat.lt_succ_iff_lt_or_eq.mp hj with hj' | hj'
        · exact le_of_lt (lt_of_le_of_lt (ihle j hj') hlt)
        · subst hj'; exact le_rfl
      · intro _
        refine ⟨n, Nat.lt_succ_self n, hb, ?_⟩
        intro j hj
        exact lt_of_le_of_lt (ihle j hj) hlt
    · have hb : bsAux df d (n + 1) = bsAux df d n := by
        rw [hstep]; unfold bsStep; simp only [hlt, if_neg, not_false_iff]
      push_neg at hlt
      refine ⟨?_, ?_, ?_⟩
      · intro h0; rw [hb] at h0 ⊢; exact ih0 h0
      · intro j hj
        rw [hb]
        rcases Nat.lt_succ_iff_lt_or_eq.mp hj with hj' | hj'
        · exact ihle j hj'
        · subst hj'; exact hlt
      · intro hpos
        rw [hb] at hpos ⊢
        obtain ⟨k, hk, hkeq, hkmin⟩ := ihpos hpos
        exact ⟨k, Nat.lt_succ_of_lt hk, hkeq, hkmin⟩

/-- A one-loss example record set used to exercise the engine theorems. -/
def exGames : List Game := [⟨1, "Hawks", "L", 2, 3⟩, ⟨2, "Owls", "W", 4, 1⟩]

/-- C1 (counterexample): on the empty cleaned record set with swing magnitude
`d = 1`, every split has flip count `0`, and `best_split` returns its
initializer `(0, 0, 0)`: the returned deltas sum to `0`, not to `d = 1`, so
the claim that the returned deltas always sum to `d` fails. -/
theorem best_split_deltas_counterexample :
    best_split ([] : List Game) 1 = (0, 0, 0)
    ∧ (best_split ([] : List Game) 1).2.1 + (best_split ([] : List Game) 1).2.2 ≠ 1 := by
  decide

/-- C1 (amended): for every record set and swing magnitude `d ≥ 1`,
`best_split(d)` dominates `flip_count(k, d-k)` for every `k` in `[0, d]`;
whenever the maximum flip count is positive, it returns that maximum together
with the split `(k, d-k)` for the smallest `k` attaining it (so the deltas sum
to `d`); when every split yields zero flips it returns `(0, 0, 0)`, whose
deltas sum to `0`. -/
theorem best_split_spec (df : List Game) (d : Nat) (hd : 1 ≤ d) :
    (∀ k, k ≤ d → flip_count df (k : Int) ((d - k : Nat) : Int) ≤ (best_split df d).1)
    ∧ (0 < (best_split df d).1 →
        ∃ k, k ≤ d
          ∧ best_split df d = (flip_count df (k : Int) ((d - k : Nat) : Int), k, d - k)
          ∧ k + (d - k) = d
          ∧ ∀ j, j < k →
              flip_count df (j : Int) ((d - j : Nat) : Int)
                < flip_count df (k : Int) ((d - k : Nat) : Int))
    ∧ ((best_split df d).1 = 0 → best_split df d = (0, 0, 0)) := by
  obtain ⟨h0, hle, hpos⟩ := bsAux_spec df d (d + 1)
  rw [best_split_eq_bsAux]
  refine ⟨?_, ?_, h0⟩
  · intro k hk
    exact hle k (Nat.lt_succ_of_le hk)
  · intro h
    obtain ⟨k, hk, hkeq, hkmin⟩ := hpos h
    have hk' : k ≤ d := Nat.lt_succ_iff.mp hk
    exact ⟨k, hk', hkeq, Nat.add_sub_cancel' hk', hkmin⟩

/-- Witness for `best_split_spec` at a concrete input: on `exGames` with
`d = 2` the maximum is positive and attained first at `k = 0`. -/
theorem best_split_spec_witness :
    flip_count exGames ((1 : Nat) : Int) ((2 - 1 : Nat) : Int) ≤ (best_split exGames 2).1
    ∧ best_split exGames 2 = (1, 0, 2) := by
  constructor
  · exact (best_split_spec exGames 2 (by omega)).1 1 (by omega)
  · rfl

/-- C2: restricted to results `{W, L}`, a record is counted by the flip mask
iff its result is `L` and `(goals_for + Δfor) > max(goals_against - Δagainst, 0)`
(strict comparison); concretely, a loss with `goals_for = 2`,
`goals_against = 3` is not flipped at `Δfor = 1` (`3 > 3` is false) but is
flipped at `Δfor = 2` (`4 > 3`). -/
theorem flip_iff_loss_strict (g : Game) (gfd gad : Int)
    (hres : g.result = "W" ∨ g.result = "L") (hgf : 0 ≤ gfd) (hga : 0 ≤ gad) :
    (flipMask gfd gad g = true
      ↔ (g.result = "L" ∧ max (g.goals_against - gad) 0 < g.goals_for + gfd))
    ∧ (flip_count [g] gfd gad = 1
      ↔ (g.result = "L" ∧ max (g.goals_against - gad) 0 < g.goals_for + gfd))
    ∧ flip_count [⟨1, "Hawks", "L", 2, 3⟩] 1 0 = 0
    ∧ flip_count [⟨1, "Hawks", "L", 2, 3⟩] 2 0 = 1 := by
  have hmask : flipMask gfd gad g = true
      ↔ (g.result = "L" ∧ max (g.goals_against - gad) 0 < g.goals_for + gfd) := by
    unfold flipMask
    rw [Bool.and_eq_true, bne_iff_ne, decide_eq_true_iff]
    constructor
    · rintro ⟨hne, hlt⟩
      rcases hres with hW | hL
      · exact absurd hW hne
      · exact ⟨hL, hlt⟩
    · rintro ⟨hL, hlt⟩
      refine ⟨?_, hlt⟩
      rw [hL]
      intro hWL
      exact absurd hWL (by decide)
  refine ⟨hmask, ?_, by decide, by decide⟩
  rw [flip_count_eq_filter_length]
  by_cases hm : flipMask gfd gad g = true
  · rw [List.filter_cons, if_pos hm]
    simp only [List.filter_nil, List.length_cons, List.length_nil]
    exact ⟨fun _ => hmask.mp hm, fun _ => trivial⟩
  · rw [List.filter_cons, if_neg hm]
    simp only [List.filter_nil, List.length_nil]
    constructor
    · intro h; exact absurd h (by omega)
    · intro h; exact absurd (hmask.mpr h) hm

/-- Witness for `flip_iff_loss_strict` at the scenario-B record. -/
theorem flip_iff_loss_strict_witness :
    flip_count [(⟨1, "Hawks", "L", 2, 3⟩ : Game)] 1 0 = 0 :=
  (flip_iff_loss_strict ⟨1, "Hawks", "L", 2, 3⟩ 1 0 (Or.inr rfl) (by omega)
    (by omega)).2.2.1

/-- C3: for every record set and magnitude `d ≥ 1`, the flip count in each
fixed allocation mode is monotonically non-decreasing in the magnitude:
`flip_count(d+1, 0) ≥ flip_count(d, 0)` and `flip_count(0, d+1) ≥ flip_count(0, d)`. -/
theorem flip_count_monotone (df : List Game) (d : Int) (hd : 1 ≤ d) :
    flip_count df d 0 ≤ flip_count df (d + 1) 0
    ∧ flip_count df 0 d ≤ flip_count df 0 (d + 1) := by
  constructor
  · refine flip_count_mono_of_imp df d 0 (d + 1) 0 ?_
    intro g hg
    unfold flipMask at hg ⊢
    rw [Bool.and_eq_true, decide_eq_true_iff] at hg ⊢
    exact ⟨hg.1, by omega⟩
  · refine flip_count_mono_of_imp df 0 d 0 (d + 1) ?_
    intro g hg
    unfold flipMask at hg ⊢
    rw [Bool.and_eq_true, decide_eq_true_iff] at hg ⊢
    refine ⟨hg.1, ?_⟩
    have hmax : max (g.goals_against - (d + 1)) 0 ≤ max (g.goals_against - d) 0 :=
      max_le_max (by omega) le_rfl
    exact lt_of_le_of_lt hmax hg.2

/-- Witness for `flip_count_monotone` at `exGames`, `d = 1`. -/
theorem flip_count_monotone_witness :
    flip_count exGames 1 0 ≤ flip_count exGames (1 + 1) 0 :=
  (flip_count_monotone exGames 1 (by omega)).1

/-! ## Character and string utilities shared by both pipelines

Python string semantics (whitespace set, case mapping, `str.title`,
`str.strip`) modelled on the character repertoire these inputs use. -/

/-- Python whitespace (`\s` in a unicode `str` pattern / `str.strip()`). -/
def pySpace (c : Char) : Bool :=
  c.toNat == 32 || (9 ≤ c.toNat && c.toNat ≤ 13) ||
  (0x1c ≤ c.toNat && c.toNat ≤ 0x1f) || c.toNat == 0x85 || c.toNat == 0xa0 ||
  c.toNat == 0x1680 || (0x2000 ≤ c.toNat && c.toNat ≤ 0x200a) || c.toNat == 0x2028 ||
  c.toNat == 0x2029 || c.toNat == 0x202f || c.toNat == 0x205f || c.toNat == 0x3000

def isAsciiDigit (c : Char) : Bool := 48 ≤ c.toNat && c.toNat ≤ 57

def isAsciiAlpha (c : Char) : Bool :=
  (65 ≤ c.toNat && c.toNat ≤ 90) || (97 ≤ c.toNat && c.toNat ≤ 122)

/-- A regex word character (`\w`), as used for `\b` boundaries; modelled on
the ASCII repertoire of these inputs. -/
def isWordChar (c : Char) : Bool := isAsciiAlpha c || isAsciiDigit c || c == '_'

/-- `re.sub(r'\s+', ' ', s)`: every maximal whitespace run becomes one space. -/
def collapseL : List Char → List Char
  | [] => []
  | [c] => if pySpace c then [' '] else [c]
  | c :: d :: rest =>
    if pySpace c then
      (if pySpace d then collapseL (d :: rest) else ' ' :: collapseL (d :: rest))
    else c :: collapseL (d :: rest)

/-- `str.strip()`: drop leading and trailing whitespace. -/
def stripL (l : List Char) : List Char :=
  ((l.dropWhile pySpace).reverse.dropWhile pySpace).reverse

/-- `str.lstrip(cs)`: drop leading characters from the set `cs`. -/
def lstripSetL (cs : List Char) (l : List Char) : List Char :=
  l.dropWhile (fun c => c ∈ cs)

/-- `str.strip(cs)`: drop leading and trailing characters from the set `cs`. -/
def stripSetL (cs : List Char) (l : List Char) : List Char :=
  ((l.dropWhile (fun c => c ∈ cs)).reverse.dropWhile (fun c => c ∈ cs)).reverse

/-- The single-character case mapping of `str.title()`: uppercase a letter
that does not follow a letter, lowercase one that does, leave the rest. -/
def titleChar (prevAlpha : Bool) (c : Char) : Char :=
  if isAsciiAlpha c then (if prevAlpha then c.toLower else c.toUpper) else c

/-- `str.title()` worker (ASCII case mapping). -/
def titleAux : Bool → List Char → List Char
  | _, [] => []
  | prevAlpha, c :: rest => titleChar prevAlpha c :: titleAux (isAsciiAlpha c) rest

def titleL (l : List Char) : List Char := titleAux false l

def strUpper (s : String) : String := ⟨s.data.map Char.toUpper⟩

def strLower (s : String) : String := ⟨s.data.map Char.toLower⟩

/-! ### Canonical-whitespace and title-case lemmas -/

theorem charOfNat_toNat {n : Nat} (h : n < 55296) : (Char.ofNat n).toNat = n := by
  unfold Char.ofNat
  rw [dif_pos (Or.inl h)]
  rfl

theorem alpha_not_space {c : Char} (h : isAsciiAlpha c = true) : pySpace c = false := by
  unfold isAsciiAlpha at h
  unfold pySpace
  simp only [Bool.or_eq_true, Bool.and_eq_true, decide_eq_true_eq] at h
  rw [Bool.eq_false_iff]
  intro hsp
  simp only [Bool.or_eq_true, Bool.and_eq_true, beq_iff_eq, decide_eq_true_eq] at hsp
  omega

theorem alpha_toUpper {c : Char} (h : isAsciiAlpha c = true) :
    isAsciiAlpha c.toUpper = true := by
  unfold Char.toUpper
  by_cases hl : c.toNat ≥ 97 ∧ c.toNat ≤ 122
  · rw [if_pos hl]
    unfold isAsciiAlpha at h ⊢
    simp only [Bool.or_eq_true, Bool.and_eq_true, decide_eq_true_eq] at h ⊢
    rw [charOfNat_toNat (by omega)]
    omega
  · rw [if_neg hl]
    exact h

theorem alpha_toLower {c : Char} (h : isAsciiAlpha c = true) :
    isAsciiAlpha c.toLower = true := by
  unfold Char.toLower
  by_cases hl : c.toNat ≥ 65 ∧ c.toNat ≤ 90
  · rw [if_pos hl]
    unfold isAsciiAlpha at h ⊢
    simp only [Bool.or_eq_true, Bool.and_eq_true, decide_eq_true_eq] at h ⊢
    rw [charOfNat_toNat (by omega)]
    omega
  · rw [if_neg hl]
    exact h

theorem titleChar_of_not_alpha {b : Bool} {c : Char} (h : isAsciiAlpha c = false) :
    titleChar b c = c := by
  unfold titleChar
  rw [h]
  simp

theorem titleChar_alpha (b : Bool) (c : Char) :
    isAsciiAlpha (titleChar b c) = isAsciiAlpha c := by
  unfold titleChar
  by_cases h : isAsciiAlpha c = true
  · rw [if_pos h, h]
    cases b with
    | true => rw [if_pos rfl]; exact alpha_toLower h
    | false => rw [if_neg (by simp)]; exact alpha_toUpper h
  · rw [if_neg h]

theorem titleChar_space (b : Bool) (c : Char) : pySpace (titleChar b c) = pySpace c := by
  by_cases h : isAsciiAlpha c = true
  · have h2 : isAsciiAlpha (titleChar b c) = true := by rw [titleChar_alpha]; exact h
    rw [alpha_not_space h, alpha_not_space h2]
  · rw [titleChar_of_not_alpha (Bool.eq_false_iff.mpr h)]

theorem toUpper_toUpper {c : Char} (h : isAsciiAlpha c = true) :
    c.toUpper.toUpper = c.toUpper := by
  unfold Char.toUpper
  by_cases hl : c.toNat ≥ 97 ∧ c.toNat ≤ 122
  · rw [if_pos hl, if_neg]
    rw [charOfNat_toNat (by omega)]
    omega
  · rw [if_neg hl, if_neg hl]

theorem toLower_toLower {c : Char} (h : isAsciiAlpha c = true) :
    c.toLower.toLower = c.toLower := by
  unfold Char.toLower
  by_cases hl : c.toNat ≥ 65 ∧ c.toNat ≤ 90
  · rw [if_pos hl, if_neg]
    rw [charOfNat_toNat (by omega)]
    omega
  · rw [if_neg hl, if_neg hl]

theorem titleChar_titleChar (b : Bool) (c : Char) :
    titleChar b (titleChar b c) = titleChar b c := by
  by_cases h : isAsciiAlpha c = true
  · have heq : titleChar b c = if b = true then c.toLower else c.toUpper := by
      unfold titleChar
      rw [if_pos h]
    rw [heq]
    cases b with
    | true =>
      rw [if_pos rfl]
      unfold titleChar
      rw [if_pos (alpha_toLower h), if_pos rfl]
      exact toLower_toLower h
    | false =>
      rw [if_neg (by simp)]
      unfold titleChar
      rw [if_pos (alpha_toUpper h), if_neg (by simp)]
      exact toUpper_toUpper h
  · rw [titleChar_of_not_alpha (Bool.eq_false_iff.mpr h),
        titleChar_of_not_alpha (Bool.eq_false_iff.mpr h)]

theorem titleAux_titleAux (l : List Char) : ∀ b, titleAux b (titleAux b l) = titleAux b l := by
  induction l with
  | nil => intro b; rfl
  | cons c rest ih =>
    intro b
    simp only [titleAux]
    rw [titleChar_titleChar, titleChar_alpha, ih]

/-- Interior whitespace canonicity: every whitespace character is a plain
space and is followed by a non-space character (so also no trailing space). -/
def canonMid : List Char → Bool
  | [] => true
  | c :: rest =>
    if pySpace c then
      (c == ' ') && (match rest with | [] => false | d :: _ => !pySpace d) && canonMid rest
    else canonMid rest

/-- Full whitespace canonicity: `canonMid` plus no leading space. -/
def canonWs (l : List Char) : Bool :=
  (match l with | [] => true | c :: _ => !pySpace c) && canonMid l

/-- As `canonMid` but allowing one trailing space (the shape `collapseL`
produces before stripping). -/
def canonB : List Char → Bool
  | [] => true
  | c :: rest =>
    if pySpace c then
      (c == ' ') && (match rest with | [] => true | d :: _ => !pySpace d) && canonB rest
    else canonB rest

theorem canonMid_tail {c : Char} {rest : List Char} (h : canonMid (c :: rest) = true) :
    canonMid rest = true := by
  unfold canonMid at h
  by_cases hc : pySpace c = true
  · rw [if_pos hc] at h
    simp only [Bool.and_eq_true] at h
    exact h.2
  · rwa [if_neg hc] at h

theorem canonB_tail {c : Char} {rest : List Char} (h : canonB (c :: rest) = true) :
    canonB rest = true := by
  unfold canonB at h
  by_cases hc : pySpace c = true
  · rw [if_pos hc] at h
    simp only [Bool.and_eq_true] at h
    exact h.2
  · rwa [if_neg hc] at h

theorem canonMid_spaces : ∀ {l : List Char}, canonMid l = true →
    ∀ c ∈ l, pySpace c = true → c = ' ' := by
  intro l
  induction l with
  | nil => intro _ c hc; exact absurd hc (List.not_mem_nil c)
  | cons a rest ih =>
    intro h c hc hsp
    rcases List.mem_cons.mp hc with hc' | hc'
    · subst hc'
      unfold canonMid at h
      rw [if_pos hsp] at h
      simp only [Bool.and_eq_true, beq_iff_eq] at h
      exact h.1.1
    · exact ih (canonMid_tail h) c hc' hsp

theorem canonMid_last : ∀ {l : List Char}, canonMid l = true →
    ∀ c, l.getLast? = some c → pySpace c = false := by
  intro l
  induction l with
  | nil => intro _ c hc; exact absurd hc (by simp)
  | cons a rest ih =>
    intro h c hc
    cases rest with
    | nil =>
      have ha : a = c := by simpa using hc
      subst ha
      unfold canonMid at h
      by_cases hsp : pySpace a = true
      · rw [if_pos hsp] at h
        simp only [Bool.and_eq_true] at h
        exact absurd h.1.2 (by simp)
      · exact Bool.eq_false_iff.mpr hsp
    | cons b rest2 =>
      have hr : (b :: rest2).getLast? = some c := by
        rwa [List.getLast?_cons_cons] at hc
      exact ih (canonMid_tail h) c hr

theorem canonMid_collapse : ∀ {l : List Char}, canonMid l = true → collapseL l = l := by
  intro l
  induction l with
  | nil => intro _; rfl
  | cons a rest ih =>
    intro h
    have htail := canonMid_tail h
    cases rest with
    | nil =>
      unfold canonMid at h
      by_cases hsp : pySpace a = true
      · rw [if_pos hsp] at h
        simp only [Bool.and_eq_true] at h
        exact absurd h.1.2 (by simp)
      · simp only [collapseL, if_neg hsp]
    | cons b rest2 =>
      by_cases hsp : pySpace a = true
      · unfold canonMid at h
        rw [if_pos hsp] at h
        simp only [Bool.and_eq_true, beq_iff_eq, Bool.not_eq_true'] at h
        obtain ⟨⟨ha, hb⟩, _⟩ := h
        simp only [collapseL, if_pos hsp, if_neg (by rw [hb]; exact Bool.false_ne_true : ¬pySpace b = true)]
        rw [ih htail, ha]
      · simp only [collapseL, if_neg hsp]
        rw [ih htail]

theorem dropWhile_eq_self_of_head {p : Char → Bool} : ∀ {l : List Char},
    (∀ c, l.head? = some c → p c = false) → l.dropWhile p = l := by
  intro l h
  cases l with
  | nil => rfl
  | cons a rest =>
    have := h a rfl
    rw [List.dropWhile_cons, if_neg (by rw [this]; exact Bool.false_ne_true)]

/-- No whitespace at either end. -/
def noEdgeSpace (l : List Char) : Prop :=
  (∀ c, l.head? = some c → pySpace c = false) ∧ (∀ c, l.getLast? = some c → pySpace c = false)

theorem stripL_eq_self {l : List Char} (h : noEdgeSpace l) : stripL l = l := by
  unfold stripL
  rw [dropWhile_eq_self_of_head h.1]
  rw [dropWhile_eq_self_of_head (by intro c hc; rw [List.head?_reverse] at hc; exact h.2 c hc)]
  exact List.reverse_reverse l

theorem getLast?_dropWhile {p : Char → Bool} : ∀ {l : List Char},
    l.dropWhile p ≠ [] → (l.dropWhile p).getLast? = l.getLast? := by
  intro l
  induction l with
  | nil => intro h; exact absurd rfl h
  | cons a rest ih =>
    intro h
    by_cases hp : p a = true
    · rw [List.dropWhile_cons, if_pos hp] at h ⊢
      have hrest : rest ≠ [] := by
        intro hnil
        rw [hnil] at h
        exact h rfl
      rw [ih h]
      cases rest with
      | nil => exact absurd rfl hrest
      | cons b r2 => rw [List.getLast?_cons_cons]
    · rw [List.dropWhile_cons, if_neg hp]

theorem stripL_noEdgeSpace (l : List Char) : noEdgeSpace (stripL l) := by
  unfold stripL
  constructor
  · intro c hc
    rw [List.head?_reverse] at hc
    by_cases hnil : ((l.dropWhile pySpace).reverse.dropWhile pySpace) = []
    · rw [hnil] at hc
      exact absurd hc (by simp)
    · rw [getLast?_dropWhile hnil, List.getLast?_reverse] at hc
      have hh := List.head?_dropWhile_not pySpace l
      rw [hc] at hh
      simpa using hh
  · intro c hc
    rw [List.getLast?_reverse] at hc
    have := List.head?_dropWhile_not pySpace (l.dropWhile pySpace).reverse
    rw [hc] at this
    simpa using this

theorem space_not_alpha {c : Char} (h : pySpace c = true) : isAsciiAlpha c = false := by
  by_cases ha : isAsciiAlpha c = true
  · rw [alpha_not_space ha] at h
    exact absurd h (by simp)
  · exact Bool.eq_false_iff.mpr ha

theorem canonB_spaces : ∀ {l : List Char}, canonB l = true →
    ∀ c ∈ l, pySpace c = true → c = ' ' := by
  intro l
  induction l with
  | nil => intro _ c hc; exact absurd hc (List.not_mem_nil c)
  | cons a rest ih =>
    intro h c hc hsp
    rcases List.mem_cons.mp hc with hc' | hc'
    · subst hc'
      unfold canonB at h
      rw [if_pos hsp] at h
      simp only [Bool.and_eq_true, beq_iff_eq] at h
      exact h.1.1
    · exact ih (canonB_tail h) c hc' hsp

theorem collapse_head {d : Char} (rest : List Char) (hd : pySpace d = false) :
    ∃ t, collapseL (d :: rest) = d :: t := by
  cases rest with
  | nil =>
    refine ⟨[], ?_⟩
    simp only [collapseL, if_neg (by rw [hd]; exact Bool.false_ne_true : ¬pySpace d = true)]
  | cons e r =>
    refine ⟨collapseL (e :: r), ?_⟩
    simp only [collapseL, if_neg (by rw [hd]; exact Bool.false_ne_true : ¬pySpace d = true)]

theorem collapse_canonB : ∀ l : List Char, canonB (collapseL l) = true := by
  intro l
  induction l with
  | nil => rfl
  | cons c rest ih =>
    cases rest with
    | nil =>
      by_cases hc : pySpace c = true
      · simp only [collapseL, if_pos hc]
        decide
      · simp only [collapseL, if_neg hc]
        unfold canonB
        rw [if_neg hc]
        rfl
    | cons d rest2 =>
      by_cases hc : pySpace c = true
      · by_cases hd : pySpace d = true
        · simp only [collapseL, if_pos hc, if_pos hd]
          exact ih
        · simp only [collapseL, if_pos hc, if_neg hd]
          obtain ⟨t, ht⟩ := collapse_head rest2 (Bool.eq_false_iff.mpr hd)
          rw [ht]
          unfold canonB
          rw [if_pos (by decide)]
          rw [Bool.and_eq_true, Bool.and_eq_true]
          refine ⟨⟨by decide, ?_⟩, ?_⟩
          · show (!pySpace d) = true
            rw [Bool.eq_false_iff.mpr hd]
            rfl
          · rw [← ht]
            exact ih
      · simp only [collapseL, if_neg hc]
        unfold canonB
        rw [if_neg hc]
        exact ih

theorem canonB_dropWhile {l : List Char} (h : canonB l = true) :
    canonB (l.dropWhile pySpace) = true := by
  cases l with
  | nil => rfl
  | cons c rest =>
    by_cases hc : pySpace c = true
    · rw [List.dropWhile_cons, if_pos hc]
      unfold canonB at h
      rw [if_pos hc] at h
      simp only [Bool.and_eq_true] at h
      cases rest with
      | nil => rfl
      | cons d rest2 =>
        have hd : pySpace d = false := by
          have := h.1.2
          simpa using this
        rw [dropWhile_eq_self_of_head (by intro x hx; rw [List.head?_cons, Option.some.injEq] at hx; rw [hx] at hd; exact hd)]
        exact h.2
    · rw [List.dropWhile_cons, if_neg hc]
      exact h

theorem canonB_to_canonMid : ∀ {l : List Char}, canonB l = true →
    (∀ c, l.getLast? = some c → pySpace c = false) → canonMid l = true := by
  intro l
  induction l with
  | nil => intro _ _; rfl
  | cons a rest ih =>
    intro h hlast
    by_cases ha : pySpace a = true
    · unfold canonB at h
      rw [if_pos ha] at h
      simp only [Bool.and_eq_true, beq_iff_eq] at h
      cases rest with
      | nil =>
        have := hlast a (by simp)
        rw [ha] at this
        exact absurd this (by simp)
      | cons d rest2 =>
        unfold canonMid
        rw [if_pos ha]
        simp only [Bool.and_eq_true, beq_iff_eq]
        refine ⟨⟨h.1.1, h.1.2⟩, ?_⟩
        refine ih h.2 ?_
        intro c hc
        exact hlast c (by rwa [List.getLast?_cons_cons])
    · unfold canonB at h
      rw [if_neg ha] at h
      unfold canonMid
      rw [if_neg ha]
      cases rest with
      | nil => rfl
      | cons d rest2 =>
        refine ih h ?_
        intro c hc
        exact hlast c (by rwa [List.getLast?_cons_cons])

theorem canonB_append_last : ∀ {xs : List Char}, canonB (xs ++ [' ']) = true →
    ∀ c, xs.getLast? = some c → pySpace c = false := by
  intro xs
  induction xs with
  | nil => intro _ c hc; exact absurd hc (by simp)
  | cons a rest ih =>
    intro h c hc
    cases rest with
    | nil =>
      have ha : a = c := by simpa using hc
      subst ha
      simp only [List.cons_append, List.nil_append] at h
      by_cases hsp : pySpace a = true
      · unfold canonB at h
        rw [if_pos hsp] at h
        simp only [Bool.and_eq_true] at h
        have hbad := h.1.2
        exact absurd hbad (by decide)
      · exact Bool.eq_false_iff.mpr hsp
    | cons b rest2 =>
      have h2 : canonB ((b :: rest2) ++ [' ']) = true := canonB_tail (by simpa using h)
      exact ih h2 c (by rwa [List.getLast?_cons_cons] at hc)

theorem canonB_append_elim : ∀ {xs : List Char}, canonB (xs ++ [' ']) = true →
    canonB xs = true := by
  intro xs
  induction xs with
  | nil => intro _; rfl
  | cons a rest ih =>
    intro h
    rw [List.cons_append] at h
    by_cases ha : pySpace a = true
    · cases rest with
      | nil =>
        simp only [List.nil_append] at h
        unfold canonB at h
        rw [if_pos ha] at h
        simp only [Bool.and_eq_true] at h
        exact absurd h.1.2 (by decide)
      | cons d rest2 =>
        rw [List.cons_append] at h
        unfold canonB at h
        rw [if_pos ha] at h
        simp only [Bool.and_eq_true, beq_iff_eq, Bool.not_eq_true'] at h
        unfold canonB
        rw [if_pos ha]
        simp only [Bool.and_eq_true, beq_iff_eq, Bool.not_eq_true']
        refine ⟨⟨h.1.1, h.1.2⟩, ih (by rw [List.cons_append]; exact h.2)⟩
    · unfold canonB at h
      rw [if_neg ha] at h
      unfold canonB
      rw [if_neg ha]
      cases rest with
      | nil => rfl
      | cons d rest2 => exact ih h

/-- Stripping a `canonB` string yields a fully canonical string. -/
theorem canonB_strip : ∀ m : List Char, canonB m = true → canonWs (stripL m) = true := by
  intro m hB
  have hB1 : canonB (m.dropWhile pySpace) = true := canonB_dropWhile hB
  unfold stripL
  cases hmm : m.dropWhile pySpace with
  | nil => rfl
  | cons x xs =>
    rw [hmm] at hB1
    have hx : pySpace x = false := by
      have hh := List.head?_dropWhile_not pySpace m
      rw [hmm] at hh
      simpa using hh
    have hne : (x :: xs) ≠ ([] : List Char) := by simp
    obtain ⟨c, hlast⟩ : ∃ c, (x :: xs).getLast? = some c :=
      ⟨(x :: xs).getLast hne, List.getLast?_eq_getLast _ hne⟩
    by_cases hc : pySpace c = true
    · have hceq : c = ' ' := canonB_spaces hB1 c (List.mem_of_mem_getLast? hlast) hc
      subst hceq
      have hdecomp : (x :: xs).dropLast ++ [' '] = x :: xs := by
        have h1 := List.dropLast_append_getLast hne
        have h2 : (x :: xs).getLast hne = ' ' := by
          have h3 := List.getLast?_eq_getLast (x :: xs) hne
          rw [hlast] at h3
          exact ((Option.some.injEq _ _).mp h3).symm
        rwa [h2] at h1
      have hBx : canonB ((x :: xs).dropLast ++ [' ']) = true := by rwa [hdecomp]
      have hxslast : ∀ e, (x :: xs).dropLast.getLast? = some e → pySpace e = false :=
        canonB_append_last hBx
      have hrev : (x :: xs).reverse = ' ' :: (x :: xs).dropLast.reverse := by
        rw [← hdecomp]
        simp
      rw [hrev, List.dropWhile_cons, if_pos (by decide)]
      rw [dropWhile_eq_self_of_head (by
        intro e he
        rw [List.head?_reverse] at he
        exact hxslast e he)]
      rw [List.reverse_reverse]
      unfold canonWs
      rw [Bool.and_eq_true]
      constructor
      · cases hxsc : (x :: xs).dropLast with
        | nil => rfl
        | cons y t =>
          have hy : y = x := by
            have := congrArg List.head? hdecomp
            rw [hxsc] at this
            simpa using this
          subst hy
          simp only [Bool.not_eq_true']
          exact hx
      · exact canonB_to_canonMid (canonB_append_elim hBx) hxslast
    · have hpc : pySpace c = false := Bool.eq_false_iff.mpr hc
      rw [dropWhile_eq_self_of_head (by
        intro e he
        rw [List.head?_reverse, hlast] at he
        rw [← (Option.some.injEq _ _).mp he]
        exact hpc)]
      rw [List.reverse_reverse]
      unfold canonWs
      rw [Bool.and_eq_true]
      refine ⟨by simp only [Bool.not_eq_true']; exact hx, ?_⟩
      refine canonB_to_canonMid hB1 ?_
      intro e he
      rw [hlast] at he
      rw [← (Option.some.injEq _ _).mp he]
      exact hpc

/-- `strip` after `collapse` yields a fully canonical string. -/
theorem canon_strip_collapse (l : List Char) : canonWs (stripL (collapseL l)) = true :=
  canonB_strip (collapseL l) (collapse_canonB l)

theorem canonMid_dropWhile (q : Char → Bool) : ∀ {l : List Char},
    canonMid l = true → canonMid (l.dropWhile q) = true := by
  intro l
  induction l with
  | nil => intro _; rfl
  | cons c rest ih =>
    intro h
    by_cases hq : q c = true
    · rw [List.dropWhile_cons, if_pos hq]
      exact ih (canonMid_tail h)
    · rwa [List.dropWhile_cons, if_neg hq]

theorem canonWs_head {l : List Char} (h : canonWs l = true) :
    ∀ c, l.head? = some c → pySpace c = false := by
  intro c hc
  unfold canonWs at h
  rw [Bool.and_eq_true] at h
  cases l with
  | nil => exact absurd hc (by simp)
  | cons a rest =>
    have ha : a = c := by simpa using hc
    subst ha
    simpa using h.1

theorem canonWs_to_noEdgeSpace {l : List Char} (h : canonWs l = true) : noEdgeSpace l := by
  refine ⟨canonWs_head h, ?_⟩
  unfold canonWs at h
  rw [Bool.and_eq_true] at h
  exact canonMid_last h.2

/-- Stripping `'='` and `' '` from the front of a canonical string keeps it
canonical (the string cannot expose a non-`' '` space at its new head). -/
theorem canonWs_lstripSet {l : List Char} (h : canonWs l = true) :
    canonWs (lstripSetL ['=', ' '] l) = true := by
  unfold canonWs at h
  rw [Bool.and_eq_true] at h
  unfold canonWs lstripSetL
  rw [Bool.and_eq_true]
  constructor
  · cases hd : l.dropWhile (fun c => c ∈ ['=', ' ']) with
    | nil => rfl
    | cons x xs =>
      have hx : (x ∈ ['=', ' ']) = false := by
        have hh := List.head?_dropWhile_not (fun c => decide (c ∈ ['=', ' '])) l
        rw [show l.dropWhile (fun c => c ∈ ['=', ' ']) = l.dropWhile (fun c => decide (c ∈ ['=', ' '])) from rfl] at hd
        rw [hd] at hh
        simpa using hh
      have hmem : x ∈ l := by
        refine (List.dropWhile_sublist (fun c => decide (c ∈ ['=', ' ']))).subset ?_
        rw [show l.dropWhile (fun c => decide (c ∈ ['=', ' '])) = l.dropWhile (fun c => c ∈ ['=', ' ']) from rfl, hd]
        exact List.mem_cons_self x xs
      simp only [Bool.not_eq_true']
      by_cases hsp : pySpace x = true
      · have := canonMid_spaces h.2 x hmem hsp
        subst this
        simp at hx
      · exact Bool.eq_false_iff.mpr hsp
  · exact canonMid_dropWhile _ h.2

theorem title_head_space {b : Bool} {l : List Char}
    (h : ∀ c, l.head? = some c → pySpace c = false) :
    ∀ c, (titleAux b l).head? = some c → pySpace c = false := by
  intro c hc
  cases l with
  | nil => exact absurd hc (by simp [titleAux])
  | cons a rest =>
    have ha : titleChar b a = c := by simpa [titleAux] using hc
    rw [← ha, titleChar_space]
    exact h a rfl

theorem title_last_space : ∀ {l : List Char} {b : Bool},
    (∀ c, l.getLast? = some c → pySpace c = false) →
    ∀ c, (titleAux b l).getLast? = some c → pySpace c = false := by
  intro l
  induction l with
  | nil => intro b _ c hc; exact absurd hc (by simp [titleAux])
  | cons a rest ih =>
    intro b h c hc
    cases rest with
    | nil =>
      have ha : titleChar b a = c := by simpa [titleAux] using hc
      rw [← ha, titleChar_space]
      exact h a (by simp)
    | cons d rest2 =>
      have hc2 : (titleAux (isAsciiAlpha a) (d :: rest2)).getLast? = some c := by
        simp only [titleAux] at hc
        rwa [List.getLast?_cons_cons] at hc
      refine ih ?_ c hc2
      intro e he
      exact h e (by rwa [List.getLast?_cons_cons])

theorem canonMid_title : ∀ {l : List Char} (b : Bool),
    canonMid l = true → canonMid (titleAux b l) = true := by
  intro l
  induction l with
  | nil => intro b _; rfl
  | cons c rest ih =>
    intro b h
    by_cases hc : pySpace c = true
    · have hca : isAsciiAlpha c = false := space_not_alpha hc
      unfold canonMid at h
      rw [if_pos hc] at h
      simp only [Bool.and_eq_true, beq_iff_eq] at h
      cases rest with
      | nil => exact absurd h.1.2 (by simp)
      | cons d rest2 =>
        have hd : pySpace d = false := by simpa using h.1.2
        simp only [titleAux, titleChar_of_not_alpha hca]
        unfold canonMid
        rw [if_pos hc]
        rw [Bool.and_eq_true, Bool.and_eq_true]
        refine ⟨⟨by rw [h.1.1]; decide, ?_⟩, ih (isAsciiAlpha c) h.2⟩
        show (!pySpace (titleChar (isAsciiAlpha c) d)) = true
        rw [titleChar_space, hd]
        rfl
    · have h2 : canonMid rest = true := canonMid_tail h
      simp only [titleAux]
      unfold canonMid
      rw [if_neg (by rw [titleChar_space]; exact hc)]
      exact ih (isAsciiAlpha c) h2

theorem canonWs_title {l : List Char} (h : canonWs l = true) :
    canonWs (titleL l) = true := by
  unfold canonWs at h
  rw [Bool.and_eq_true] at h
  unfold canonWs titleL
  rw [Bool.and_eq_true]
  refine ⟨?_, canonMid_title false h.2⟩
  cases l with
  | nil => rfl
  | cons a rest =>
    simp only [titleAux, Bool.not_eq_true']
    rw [titleChar_space]
    simpa using h.1

theorem noEdgeSpace_title {l : List Char} (h : noEdgeSpace l) : noEdgeSpace (titleL l) :=
  ⟨title_head_space h.1, title_last_space h.2⟩

theorem titleAux_ne_nil {b : Bool} {l : List Char} (h : l ≠ []) : titleAux b l ≠ [] := by
  cases l with
  | nil => exact absurd rfl h
  | cons a rest => simp [titleAux]

/-- First-seen deduplication by a key, as `pandas.drop_duplicates` keeps the
first row of each duplicate group. -/
def dedupByAux {α β : Type} [DecidableEq β] (key : α → β) (seen : List β) :
    List α → List α
  | [] => []
  | a :: rest =>
    if key a ∈ seen then dedupByAux key seen rest
    else a :: dedupByAux key (key a :: seen) rest

def dedupBy {α β : Type} [DecidableEq β] (key : α → β) (l : List α) : List α :=
  dedupByAux key [] l

theorem dedupByAux_sublist {α β : Type} [DecidableEq β] (key : α → β) :
    ∀ (l : List α) (seen : List β), List.Sublist (dedupByAux key seen l) l := by
  intro l
  induction l with
  | nil => intro seen; exact List.Sublist.refl []
  | cons a rest ih =>
    intro seen
    by_cases h : key a ∈ seen
    · simp only [dedupByAux, if_pos h]
      exact List.Sublist.cons a (ih seen)
    · simp only [dedupByAux, if_neg h]
      exact List.Sublist.cons₂ a (ih (key a :: seen))

theorem dedupByAux_keys_nodup {α β : Type} [DecidableEq β] (key : α → β) :
    ∀ (l : List α) (seen : List β),
      ((dedupByAux key seen l).map key).Nodup
      ∧ ∀ b ∈ (dedupByAux key seen l).map key, b ∉ seen := by
  intro l
  induction l with
  | nil => intro seen; exact ⟨List.nodup_nil, by intro b hb; simp [dedupByAux] at hb⟩
  | cons a rest ih =>
    intro seen
    by_cases h : key a ∈ seen
    · simpa only [dedupByAux, if_pos h] using ih seen
    · simp only [dedupByAux, if_neg h, List.map_cons, List.nodup_cons]
      obtain ⟨ihn, ihmem⟩ := ih (key a :: seen)
      refine ⟨⟨?_, ihn⟩, ?_⟩
      · intro hmem
        exact (ihmem (key a) hmem) (List.mem_cons_self _ _)
      · intro b hb
        rcases List.mem_cons.mp hb with hb' | hb'
        · rw [hb']; exact h
        · intro hbs
          exact (ihmem b hb') (List.mem_cons_of_mem _ hbs)

theorem dedupBy_keys_nodup {α β : Type} [DecidableEq β] (key : α → β) (l : List α) :
    ((dedupBy key l).map key).Nodup :=
  (dedupByAux_keys_nodup key l []).1

theorem dedupBy_sublist {α β : Type} [DecidableEq β] (key : α → β) (l : List α) :
    List.Sublist (dedupBy key l) l :=
  dedupByAux_sublist key l []

theorem dedupByAux_eq_self {α β : Type} [DecidableEq β] (key : α → β) :
    ∀ (l : List α) (seen : List β), (l.map key).Nodup →
      (∀ a ∈ l, key a ∉ seen) → dedupByAux key seen l = l := by
  intro l
  induction l with
  | nil => intro seen _ _; rfl
  | cons a rest ih =>
    intro seen hnd hdisj
    have ha : key a ∉ seen := hdisj a (List.mem_cons_self a rest)
    simp only [dedupByAux, if_neg ha]
    rw [List.map_cons, List.nodup_cons] at hnd
    refine congrArg (a :: ·) (ih (key a :: seen) hnd.2 ?_)
    intro b hb
    intro hbmem
    rcases List.mem_cons.mp hbmem with hb' | hb'
    · exact hnd.1 (hb' ▸ List.mem_map_of_mem key hb)
    · exact (hdisj b (List.mem_cons_of_mem a hb)) hb'

theorem dedupBy_eq_self {α β : Type} [DecidableEq β] (key : α → β) (l : List α)
    (h : (l.map key).Nodup) : dedupBy key l = l :=
  dedupByAux_eq_self key l [] h (by intro a _; simp)

/-! ## Validator / Deduplicator (`clean_and_sensitivity.py`, lines 6-58)

A raw row of the tabular cleaning pipeline.  `date` is the value after
`pd.to_datetime(..., errors='coerce')` (an abstract timestamp, `none` for
`NaT`); `goals_for`/`goals_against` after `pd.to_numeric(..., errors='coerce')`
(`none` for `NaN`).  `normalize_columns` only renames columns (`gf`, `ga`,
`wl`, `team` to these names), so rows are embedded already renamed. -/

structure RawRow where
  date : Option Int
  opponent : String
  venue : String
  result : String
  goals_for : Option Int
  goals_against : Option Int
deriving DecidableEq, Repr

/-- A dataframe for `clean_filter`: its rows plus whether a `date` column is
present at all (`df.dropna(subset=['date'])` raises a `KeyError` when it is
not). -/
structure Frame where
  hasDate : Bool
  rows : List RawRow
deriving DecidableEq, Repr

/-- `coerce_types` (lines 15-31) restricted to one row: `result` is upper-cased
then stripped, `opponent` has whitespace runs collapsed then is stripped,
`venue` is title-cased; `date`/`goals_for`/`goals_against` coercions are the
identity on the already-typed optional fields. -/
def coerce_types (r : RawRow) : RawRow :=
  { r with
    result := ⟨stripL (r.result.data.map Char.toUpper)⟩,
    opponent := ⟨stripL (collapseL r.opponent.data)⟩,
    venue := ⟨titleL r.venue.data⟩ }

/-- `(.*)$` with `re.DOTALL` off: `.` does not match a newline and `$` also
matches just before one trailing newline. -/
def matchDotStarEnd (l : List Char) : Option (List Char) :=
  if '\n' ∈ l then
    (if l.getLast? = some '\n' ∧ '\n' ∉ l.dropLast then some l.dropLast else none)
  else some l

/-- After the alternation of `^(at|vs\.?)\s+(.*)$`: at least one whitespace
character, then the second group. -/
def matchPfxTail (isAt : Bool) (rest : List Char) : Option (Bool × List Char) :=
  match rest with
  | c :: _ =>
    if pySpace c then (matchDotStarEnd (rest.dropWhile pySpace)).map (fun g => (isAt, g))
    else none
  | [] => none

/-- First-success choice between the two ways `vs\.?` can match. -/
def orElseOpt (x y : Option (Bool × List Char)) : Option (Bool × List Char) :=
  match x with
  | some g => some g
  | none => y

/-- After a case-insensitive `vs`: try consuming a literal `.` first (greedy
`\.?`), falling back to no dot. -/
def matchVsTail : List Char → Option (Bool × List Char)
  | c :: rest2 =>
    if c = '.' then orElseOpt (matchPfxTail false rest2) (matchPfxTail false (c :: rest2))
    else matchPfxTail false (c :: rest2)
  | [] => none

/-- `re.match(r'^(at|vs\.?)\s+(.*)$', opp, flags=re.I)` (line 36): returns
whether the matched group 1 starts with `at` (else `vs`/`vs.`) and group 2. -/
def matchAtVs (l : List Char) : Option (Bool × List Char) :=
  match l with
  | a :: b :: rest =>
    if a.toLower == 'a' && b.toLower == 't' then matchPfxTail true rest
    else if a.toLower == 'v' && b.toLower == 's' then matchVsTail rest
    else none
  | _ => none

theorem matchPfxTail_nil (b : Bool) : matchPfxTail b [] = none := rfl

theorem matchPfxTail_cons (b : Bool) (c : Char) (t : List Char) :
    matchPfxTail b (c :: t) =
      if pySpace c = true then
        (matchDotStarEnd ((c :: t).dropWhile pySpace)).map (fun g => (b, g))
      else none := rfl

theorem matchAtVs_cons_cons (a b : Char) (rest : List Char) :
    matchAtVs (a :: b :: rest) =
      if (a.toLower == 'a' && b.toLower == 't') = true then matchPfxTail true rest
      else if (a.toLower == 'v' && b.toLower == 's') = true then matchVsTail rest
      else none := rfl

/-- `infer_venue_and_clean_opponent` (lines 33-42). -/
def infer_venue_and_clean_opponent (r : RawRow) : RawRow :=
  let opp := stripL (lstripSetL ['=', ' '] r.opponent.data)
  let ven := stripL r.venue.data
  match matchAtVs opp with
  | some (isAt, rest) =>
    let ven2 := if ven = [] then (if isAt then "Away".data else "Home".data) else ven
    { r with opponent := ⟨titleL rest⟩,
             venue := if ven2 = [] then ⟨ven2⟩ else ⟨titleL ven2⟩ }
  | none =>
    { r with opponent := ⟨titleL opp⟩,
             venue := if ven = [] then ⟨ven⟩ else ⟨titleL ven⟩ }

/-- Deduplication key of line 57: `(date, opponent, goals_for, goals_against, result)`. -/
def rowKey (r : RawRow) : Option Int × String × Option Int × Option Int × String :=
  (r.date, r.opponent, r.goals_for, r.goals_against, r.result)

/-- The sort key of line 58 (`sort_values('date')`); rows reaching the sort
have a parsed date, so the default is never observed. -/
def dateKey (r : RawRow) : Int := r.date.getD 0

def rowLe (a b : RawRow) : Prop := dateKey a ≤ dateKey b

instance : DecidableRel rowLe := fun a b => Int.decLe (dateKey a) (dateKey b)

instance : IsTotal RawRow rowLe := ⟨fun a b => Int.le_total (dateKey a) (dateKey b)⟩

instance : IsTrans RawRow rowLe := ⟨fun _ _ _ => Int.le_trans⟩

/-- `between(1, 35)` on both goal columns (line 52); `NaN.between` is false. -/
def goalsInRange (r : RawRow) : Bool :=
  match r.goals_for, r.goals_against with
  | some a, some b => decide (1 ≤ a ∧ a ≤ 35 ∧ 1 ≤ b ∧ b ≤ 35)
  | _, _ => false

/-- `df['result'].isin(['W','L'])` (line 51). -/
def resultWL (r : RawRow) : Bool := r.result == "W" || r.result == "L"

/-- `df['opponent'].str.contains(r'[A-Za-z]', na=False)` (line 54). -/
def oppHasAlpha (r : RawRow) : Bool := r.opponent.data.any isAsciiAlpha

/-- `df[df['date'] >= pd.Timestamp(start)] if start` (line 48). -/
def windowLo (start : Option Int) (l : List RawRow) : List RawRow :=
  match start with
  | some s => l.filter (fun r => decide (s ≤ dateKey r))
  | none => l

/-- `df[df['date'] <= pd.Timestamp(end)] if end` (line 49). -/
def windowHi (stop : Option Int) (l : List RawRow) : List RawRow :=
  match stop with
  | some e => l.filter (fun r => decide (dateKey r ≤ e))
  | none => l

/-- The row pipeline of `clean_filter` (lines 44-58) once the `date` column
exists: coerce, drop unparsed dates, date window, result/goal/opponent
filters, venue inference, tuple dedup, sort by date. -/
def cleanPipeline (rows : List RawRow) (start stop : Option Int) : List RawRow :=
  let l0 := rows.map coerce_types
  let l1 := l0.filter (fun r => r.date.isSome)
  let l2 := windowLo start l1
  let l3 := windowHi stop l2
  let l4 := l3.filter resultWL
  let l5 := l4.filter goalsInRange
  let l6 := l5.filter oppHasAlpha
  let l7 := l6.map infer_venue_and_clean_opponent
  let l8 := dedupBy rowKey l7
  List.insertionSort rowLe l8

/-- `clean_filter(df, start, end)`: `df.dropna(subset=['date'])` raises a
pandas `KeyError` if the frame has no `date` column; otherwise the pipeline
never raises, dropping malformed rows instead. -/
def clean_filter (fr : Frame) (start stop : Option Int) : Except String (List RawRow) :=
  if fr.hasDate = false then Except.error "KeyError: date"
  else Except.ok (cleanPipeline fr.rows start stop)

theorem clean_filter_ok (rows : List RawRow) (s e : Option Int) :
    clean_filter ⟨true, rows⟩ s e = Except.ok (cleanPipeline rows s e) := rfl

/-- A well-formed raw row used in several concrete evaluations. -/
def exRawRow : RawRow := ⟨some 4, "Hawks", "", "W", some 3, some 2⟩

/-- C6 (counterexample): with inverted date-window bounds (`end` = 3 before
`start` = 5) on a frame holding a valid row dated 4, `clean_filter` raises
nothing at all: it returns an empty cleaned output instead of failing with a
ConfigurationError (no such error exists in the code). -/
theorem clean_filter_inverted_window_counterexample :
    clean_filter ⟨true, [exRawRow]⟩ (some 5) (some 3) = Except.ok [] := rfl

/-- C6 (amended): `clean_filter` never raises for malformed individual rows —
whenever a `date` column exists it returns `ok`, dropping bad rows; with
inverted date-window bounds it still succeeds, returning an empty record set
rather than failing; only an input with no `date` column makes it fail (the
`dropna` raises a `KeyError`), producing no output. -/
theorem clean_filter_error_behavior :
    (∀ (rows : List RawRow) (s e : Option Int),
        ∃ out, clean_filter ⟨true, rows⟩ s e = Except.ok out)
    ∧ (∀ (rows : List RawRow) (s e : Option Int),
        clean_filter ⟨false, rows⟩ s e = Except.error "KeyError: date")
    ∧ (∀ (rows : List RawRow) (a b : Int), b < a →
        clean_filter ⟨true, rows⟩ (some a) (some b) = Except.ok []) := by
  refine ⟨?_, ?_, ?_⟩
  · intro rows s e
    exact ⟨cleanPipeline rows s e, rfl⟩
  · intro rows s e
    rfl
  · intro rows a b hba
    rw [clean_filter_ok]
    refine congrArg Except.ok ?_
    have h3 : List.filter (fun r => decide (dateKey r ≤ b))
        (List.filter (fun r => decide (a ≤ dateKey r))
          ((rows.map coerce_types).filter (fun r => r.date.isSome))) = [] := by
      rw [List.filter_eq_nil_iff]
      intro r hr
      have hlo := (List.mem_filter.mp hr).2
      rw [decide_eq_true_iff] at hlo
      simp only [decide_eq_true_iff]
      omega
    simp only [cleanPipeline, windowLo, windowHi]
    rw [h3]
    rfl

/-- Witness for `clean_filter_error_behavior`: inverted bounds on the empty
frame yield `ok []`, not an error. -/
theorem clean_filter_error_behavior_witness :
    clean_filter ⟨true, ([] : List RawRow)⟩ (some 5) (some 3) = Except.ok [] :=
  clean_filter_error_behavior.2.2 [] 5 3 (by omega)

theorem windowLo_subset (s : Option Int) (l : List RawRow) : windowLo s l ⊆ l := by
  cases s with
  | none => exact fun r hr => hr
  | some a => exact (List.filter_sublist l).subset

theorem windowHi_subset (s : Option Int) (l : List RawRow) : windowHi s l ⊆ l := by
  cases s with
  | none => exact fun r hr => hr
  | some a => exact (List.filter_sublist l).subset

theorem mem_windowLo {s : Option Int} {l : List RawRow} {r : RawRow}
    (hr : r ∈ windowLo s l) : ∀ a, s = some a → a ≤ dateKey r := by
  intro a ha
  subst ha
  have := (List.mem_filter.mp hr).2
  rwa [decide_eq_true_iff] at this

theorem mem_windowHi {s : Option Int} {l : List RawRow} {r : RawRow}
    (hr : r ∈ windowHi s l) : ∀ b, s = some b → dateKey r ≤ b := by
  intro b hb
  subst hb
  have := (List.mem_filter.mp hr).2
  rwa [decide_eq_true_iff] at this

/-- Every row of the cleaned output originates from an input row: it is the
venue-inferred, type-coerced image of some input row that passed every filter
of the pipeline. -/
theorem mem_cleanPipeline {rows : List RawRow} {s e : Option Int} {r : RawRow}
    (hr : r ∈ cleanPipeline rows s e) :
    ∃ r0 ∈ rows, r = infer_venue_and_clean_opponent (coerce_types r0)
      ∧ (coerce_types r0).date.isSome = true
      ∧ resultWL (coerce_types r0) = true
      ∧ goalsInRange (coerce_types r0) = true
      ∧ oppHasAlpha (coerce_types r0) = true
      ∧ (∀ a, s = some a → a ≤ dateKey (coerce_types r0))
      ∧ (∀ b, e = some b → dateKey (coerce_types r0) ≤ b) := by
  simp only [cleanPipeline] at hr
  rw [List.mem_insertionSort] at hr
  have hr7 := (dedupBy_sublist rowKey _).subset hr
  obtain ⟨r6, hr6, hre⟩ := List.mem_map.mp hr7
  have h6 := List.mem_filter.mp hr6
  have h5 := List.mem_filter.mp h6.1
  have h4 := List.mem_filter.mp h5.1
  have hwinHiMem := h4.1
  have hwinLoMem := windowHi_subset _ _ hwinHiMem
  have h1 := List.mem_filter.mp (windowLo_subset _ _ hwinLoMem)
  obtain ⟨r0, hr0, hc⟩ := List.mem_map.mp h1.1
  subst hc
  refine ⟨r0, hr0, hre.symm, h1.2, h4.2, h5.2, h6.2, ?_, ?_⟩
  · exact mem_windowLo hwinLoMem
  · intro b hb
    exact mem_windowHi hwinHiMem b hb

/-- The cleaned output never contains two rows with the same deduplication
tuple `(date, opponent, goals_for, goals_against, result)`. -/
theorem cleanPipeline_keys_nodup (rows : List RawRow) (s e : Option Int) :
    ((cleanPipeline rows s e).map rowKey).Nodup := by
  unfold cleanPipeline
  have hperm := List.perm_insertionSort rowLe
    (dedupBy rowKey (((((windowHi e (windowLo s
      (((rows.map coerce_types)).filter (fun r => r.date.isSome)))).filter resultWL).filter
        goalsInRange).filter oppHasAlpha).map infer_venue_and_clean_opponent))
  exact ((hperm.map rowKey).nodup_iff).mpr (dedupBy_keys_nodup rowKey _)

/-! ### Row stability under a second cleaning run -/

theorem infer_eq_none (r : RawRow)
    (h : matchAtVs (stripL (lstripSetL ['=', ' '] r.opponent.data)) = none) :
    infer_venue_and_clean_opponent r =
      { r with
        opponent := ⟨titleL (stripL (lstripSetL ['=', ' '] r.opponent.data))⟩,
        venue := if stripL r.venue.data = [] then ⟨stripL r.venue.data⟩
                 else ⟨titleL (stripL r.venue.data)⟩ } := by
  simp only [infer_venue_and_clean_opponent, h]

theorem infer_eq_some (r : RawRow) (isAt : Bool) (rest : List Char)
    (h : matchAtVs (stripL (lstripSetL ['=', ' '] r.opponent.data)) = some (isAt, rest)) :
    infer_venue_and_clean_opponent r =
      { r with
        opponent := ⟨titleL rest⟩,
        venue :=
          if (if stripL r.venue.data = [] then
                (if isAt then "Away".data else "Home".data)
              else stripL r.venue.data) = [] then
            ⟨if stripL r.venue.data = [] then
                (if isAt then "Away".data else "Home".data)
              else stripL r.venue.data⟩
          else
            ⟨titleL (if stripL r.venue.data = [] then
                (if isAt then "Away".data else "Home".data)
              else stripL r.venue.data)⟩ } := by
  simp only [infer_venue_and_clean_opponent, h]

theorem infer_fields (r : RawRow) :
    (infer_venue_and_clean_opponent r).date = r.date
    ∧ (infer_venue_and_clean_opponent r).result = r.result
    ∧ (infer_venue_and_clean_opponent r).goals_for = r.goals_for
    ∧ (infer_venue_and_clean_opponent r).goals_against = r.goals_against := by
  cases h : matchAtVs (stripL (lstripSetL ['=', ' '] r.opponent.data)) with
  | none => rw [infer_eq_none r h]; exact ⟨rfl, rfl, rfl, rfl⟩
  | some g =>
    obtain ⟨isAt, rest⟩ := g
    rw [infer_eq_some r isAt rest h]
    exact ⟨rfl, rfl, rfl, rfl⟩

theorem matchDotStarEnd_of_no_newline {l : List Char} (h : '\n' ∉ l) :
    matchDotStarEnd l = some l := by
  unfold matchDotStarEnd
  rw [if_neg h]

theorem canonMid_no_newline {l : List Char} (h : canonMid l = true) : '\n' ∉ l := by
  intro hmem
  have := canonMid_spaces h '\n' hmem (by decide)
  exact absurd this (by decide)

theorem matchPfxTail_canon {b b2 : Bool} {r0 g : List Char}
    (hc : canonMid r0 = true) (h : matchPfxTail b r0 = some (b2, g)) :
    canonWs g = true := by
  cases r0 with
  | nil => rw [matchPfxTail_nil] at h; exact absurd h (by simp)
  | cons c t =>
    rw [matchPfxTail_cons] at h
    by_cases hsp : pySpace c = true
    · rw [if_pos hsp] at h
      rw [matchDotStarEnd_of_no_newline (by
        intro hmem
        exact canonMid_no_newline hc ((List.dropWhile_sublist pySpace).subset hmem))] at h
      simp only [Option.map_some', Option.some.injEq, Prod.mk.injEq] at h
      rw [← h.2]
      unfold canonWs
      rw [Bool.and_eq_true]
      constructor
      · cases hd : (c :: t).dropWhile pySpace with
        | nil => rfl
        | cons x xs =>
          have hh := List.head?_dropWhile_not pySpace (c :: t)
          rw [hd] at hh
          simp only [List.head?_cons] at hh
          simpa using hh
      · exact canonMid_dropWhile pySpace hc
    · rw [if_neg hsp] at h
      exact absurd h (by simp)

theorem matchAtVs_rest_canon {l : List Char} {b : Bool} {rest : List Char}
    (hc : canonWs l = true) (h : matchAtVs l = some (b, rest)) :
    canonWs rest = true := by
  have hmid : canonMid l = true := by
    unfold canonWs at hc
    rw [Bool.and_eq_true] at hc
    exact hc.2
  cases l with
  | nil => exact absurd h (by simp [matchAtVs])
  | cons a t =>
    cases t with
    | nil => exact absurd h (by simp [matchAtVs])
    | cons a2 t2 =>
      rw [matchAtVs_cons_cons] at h
      have hmid2 : canonMid t2 = true := canonMid_tail (canonMid_tail hmid)
      by_cases h1 : (a.toLower == 'a' && a2.toLower == 't') = true
      · rw [if_pos h1] at h
        exact matchPfxTail_canon hmid2 h
      · rw [if_neg h1] at h
        by_cases h2 : (a.toLower == 'v' && a2.toLower == 's') = true
        · rw [if_pos h2] at h
          cases t2 with
          | nil => exact absurd h (by simp [matchVsTail])
          | cons a3 t3 =>
            simp only [matchVsTail] at h
            by_cases h3 : a3 = '.'
            · rw [if_pos h3] at h
              cases hm : matchPfxTail false t3 with
              | some g =>
                rw [hm] at h
                simp only [orElseOpt] at h
                have hg : g = (b, rest) := by simpa using h
                rw [hg] at hm
                exact matchPfxTail_canon (canonMid_tail hmid2) hm
              | none =>
                rw [hm] at h
                simp only [orElseOpt] at h
                exact matchPfxTail_canon hmid2 h
            · rw [if_neg h3] at h
              exact matchPfxTail_canon hmid2 h
        · rw [if_neg h2] at h
          exact absurd h (by simp)

/-- The opponent of every pipeline row is the title-casing of a canonical
string, and its venue is empty or the title-casing of a nonempty string
without edge whitespace. -/
theorem pipelineRow_struct (x : RawRow) :
    (∃ w, canonWs w = true
      ∧ (infer_venue_and_clean_opponent (coerce_types x)).opponent = ⟨titleL w⟩)
    ∧ ((infer_venue_and_clean_opponent (coerce_types x)).venue = ""
      ∨ ∃ u, noEdgeSpace u ∧ u ≠ []
          ∧ (infer_venue_and_clean_opponent (coerce_types x)).venue = ⟨titleL u⟩) := by
  have hz : canonWs (stripL (collapseL x.opponent.data)) = true :=
    canon_strip_collapse x.opponent.data
  have hzc : (coerce_types x).opponent.data = stripL (collapseL x.opponent.data) := rfl
  have hls : canonWs (lstripSetL ['=', ' '] (coerce_types x).opponent.data) = true := by
    rw [hzc]
    exact canonWs_lstripSet hz
  have hopp : stripL (lstripSetL ['=', ' '] (coerce_types x).opponent.data)
      = lstripSetL ['=', ' '] (coerce_types x).opponent.data :=
    stripL_eq_self (canonWs_to_noEdgeSpace hls)
  cases hm : matchAtVs (stripL (lstripSetL ['=', ' '] (coerce_types x).opponent.data)) with
  | none =>
    rw [infer_eq_none (coerce_types x) hm]
    constructor
    · refine ⟨stripL (lstripSetL ['=', ' '] (coerce_types x).opponent.data), ?_, rfl⟩
      rw [hopp]
      exact hls
    · by_cases hv : stripL (coerce_types x).venue.data = []
      · left
        rw [if_pos hv, hv]
      · right
        refine ⟨stripL (coerce_types x).venue.data, stripL_noEdgeSpace _, hv, ?_⟩
        rw [if_neg hv]
  | some g =>
    obtain ⟨isAt, rest⟩ := g
    rw [infer_eq_some (coerce_types x) isAt rest hm]
    constructor
    · refine ⟨rest, ?_, rfl⟩
      refine matchAtVs_rest_canon ?_ hm
      rw [hopp]
      exact hls
    · right
      by_cases hv : stripL (coerce_types x).venue.data = []
      · cases isAt with
        | true =>
          refine ⟨"Away".data, by constructor <;> (intro c hc; simp at hc; subst hc; decide), by decide, ?_⟩
          rw [if_pos hv]
          rfl
        | false =>
          refine ⟨"Home".data, by constructor <;> (intro c hc; simp at hc; subst hc; decide), by decide, ?_⟩
          rw [if_pos hv]
          rfl
      · refine ⟨stripL (coerce_types x).venue.data, stripL_noEdgeSpace _, hv, ?_⟩
        rw [if_neg hv, if_neg hv]

/-- Condition under which a second cleaning run cannot change a cleaned row:
its opponent has no leading `'='`/space left to strip, does not itself match
the `at`/`vs` prefix pattern, and still contains a letter. -/
def rerunSafe (r : RawRow) : Bool :=
  (lstripSetL ['=', ' '] r.opponent.data == r.opponent.data)
  && (matchAtVs r.opponent.data).isNone
  && oppHasAlpha r

theorem coerce_stable (r : RawRow)
    (hres : resultWL r = true)
    (hopp : ∃ w, canonWs w = true ∧ r.opponent = ⟨titleL w⟩)
    (hven : ∃ u, r.venue = ⟨titleL u⟩) :
    coerce_types r = r := by
  obtain ⟨w, hw, hwopp⟩ := hopp
  obtain ⟨u, huv⟩ := hven
  have hoppEq : stripL (collapseL r.opponent.data) = r.opponent.data := by
    rw [hwopp]
    have hcw : canonWs (titleL w) = true := canonWs_title hw
    show stripL (collapseL (titleL w)) = titleL w
    rw [canonMid_collapse (by
      unfold canonWs at hcw
      rw [Bool.and_eq_true] at hcw
      exact hcw.2)]
    exact stripL_eq_self (canonWs_to_noEdgeSpace hcw)
  have hvenEq : titleL r.venue.data = r.venue.data := by
    rw [huv]
    exact titleAux_titleAux u false
  have hresEq : stripL (r.result.data.map Char.toUpper) = r.result.data := by
    unfold resultWL at hres
    rw [Bool.or_eq_true, beq_iff_eq, beq_iff_eq] at hres
    rcases hres with h | h <;> rw [h] <;> decide
  cases r with
  | mk d o v res gf ga =>
    unfold coerce_types
    simp only [RawRow.mk.injEq, and_true, true_and]
    refine ⟨?_, ?_, ?_⟩
    · show (⟨stripL (collapseL o.data)⟩ : String) = o
      rw [hoppEq]
    · show (⟨titleL v.data⟩ : String) = v
      rw [hvenEq]
    · show (⟨stripL (res.data.map Char.toUpper)⟩ : String) = res
      rw [hresEq]

theorem infer_stable (r : RawRow)
    (hsafe : rerunSafe r = true)
    (hopp : ∃ w, canonWs w = true ∧ r.opponent = ⟨titleL w⟩)
    (hven : r.venue = "" ∨ ∃ u, noEdgeSpace u ∧ u ≠ [] ∧ r.venue = ⟨titleL u⟩) :
    infer_venue_and_clean_opponent r = r := by
  obtain ⟨w, hw, hwopp⟩ := hopp
  unfold rerunSafe at hsafe
  rw [Bool.and_eq_true, Bool.and_eq_true] at hsafe
  have hls : lstripSetL ['=', ' '] r.opponent.data = r.opponent.data := by
    have := hsafe.1.1
    rwa [beq_iff_eq] at this
  have hcw : canonWs (titleL w) = true := canonWs_title hw
  have hst : stripL r.opponent.data = r.opponent.data := by
    rw [hwopp]
    exact stripL_eq_self (canonWs_to_noEdgeSpace hcw)
  have hmv : matchAtVs (stripL (lstripSetL ['=', ' '] r.opponent.data)) = none := by
    rw [hls, hst]
    have := hsafe.1.2
    rwa [Option.isNone_iff_eq_none] at this
  rw [infer_eq_none r hmv]
  rw [hls, hst]
  have hoppT : (⟨titleL r.opponent.data⟩ : String) = r.opponent := by
    rw [hwopp]
    show (⟨titleL (titleL w)⟩ : String) = ⟨titleL w⟩
    rw [show titleL (titleL w) = titleL w from titleAux_titleAux w false]
  rcases hven with hv | ⟨u, hu, hune, huv⟩
  · have hvd : r.venue.data = [] := by rw [hv]
    have hstv : stripL r.venue.data = [] := by rw [hvd]; rfl
    cases r with
    | mk d o v res gf ga =>
      simp only [RawRow.mk.injEq, and_true, true_and]
      constructor
      · exact hoppT
      · rw [if_pos hstv, hstv]
        exact hv.symm
  · have hstv : stripL r.venue.data = titleL u := by
      rw [huv]
      show stripL (titleL u) = titleL u
      exact stripL_eq_self (noEdgeSpace_title hu)
    have hne : stripL r.venue.data ≠ [] := by
      rw [hstv]
      exact titleAux_ne_nil hune
    cases r with
    | mk d o v res gf ga =>
      simp only [RawRow.mk.injEq, and_true, true_and]
      constructor
      · exact hoppT
      · rw [if_neg hne, hstv]
        show (⟨titleL (titleL u)⟩ : String) = v
        rw [show titleL (titleL u) = titleL u from titleAux_titleAux u false]
        exact huv.symm

theorem map_eq_self_of {α : Type} (f : α → α) :
    ∀ l : List α, (∀ a ∈ l, f a = a) → l.map f = l := by
  intro l
  induction l with
  | nil => intro _; rfl
  | cons a rest ih =>
    intro h
    rw [List.map_cons, h a (List.mem_cons_self a rest),
      ih (fun b hb => h b (List.mem_cons_of_mem a hb))]

theorem goalsInRange_congr {r q : RawRow} (h1 : r.goals_for = q.goals_for)
    (h2 : r.goals_against = q.goals_against) : goalsInRange r = goalsInRange q := by
  unfold goalsInRange
  rw [h1, h2]

/-- All facts about a row of the cleaned output needed to show a second run
keeps it unchanged. -/
theorem cleanPipeline_mem_props {rows : List RawRow} {s e : Option Int} {r : RawRow}
    (hr : r ∈ cleanPipeline rows s e) :
    r.date.isSome = true ∧ resultWL r = true ∧ goalsInRange r = true
    ∧ (∀ a, s = some a → a ≤ dateKey r) ∧ (∀ b, e = some b → dateKey r ≤ b)
    ∧ (∃ w, canonWs w = true ∧ r.opponent = ⟨titleL w⟩)
    ∧ (r.venue = "" ∨ ∃ u, noEdgeSpace u ∧ u ≠ [] ∧ r.venue = ⟨titleL u⟩) := by
  obtain ⟨r0, hr0, hre, hdate, hres, hrange, halpha, hlo, hhi⟩ := mem_cleanPipeline hr
  subst hre
  obtain ⟨hfd, hfr, hfg, hfa⟩ := infer_fields (coerce_types r0)
  have hdk : dateKey (infer_venue_and_clean_opponent (coerce_types r0))
      = dateKey (coerce_types r0) := by
    unfold dateKey
    rw [hfd]
  refine ⟨by rw [hfd]; exact hdate, ?_, ?_, ?_, ?_, (pipelineRow_struct r0).1,
    (pipelineRow_struct r0).2⟩
  · unfold resultWL at hres ⊢
    rw [hfr]
    exact hres
  · rw [goalsInRange_congr hfg hfa]
    exact hrange
  · intro a ha
    rw [hdk]
    exact hlo a ha
  · intro b hb
    rw [hdk]
    exact hhi b hb

theorem windowLo_eq_self {s : Option Int} {l : List RawRow}
    (h : ∀ r ∈ l, ∀ a, s = some a → a ≤ dateKey r) : windowLo s l = l := by
  cases s with
  | none => rfl
  | some a =>
    unfold windowLo
    refine List.filter_eq_self.mpr ?_
    intro r hr
    rw [decide_eq_true_iff]
    exact h r hr a rfl

theorem windowHi_eq_self {e : Option Int} {l : List RawRow}
    (h : ∀ r ∈ l, ∀ b, e = some b → dateKey r ≤ b) : windowHi e l = l := by
  cases e with
  | none => rfl
  | some b =>
    unfold windowHi
    refine List.filter_eq_self.mpr ?_
    intro r hr
    rw [decide_eq_true_iff]
    exact h r hr b rfl

theorem cleanPipeline_sorted (rows : List RawRow) (s e : Option Int) :
    List.Sorted rowLe (cleanPipeline rows s e) := by
  unfold cleanPipeline
  exact List.sorted_insertionSort rowLe _

/-- A second run of the cleaning pipeline on its own output is the identity,
provided no cleaned opponent can be re-stripped (`rerunSafe`). -/
theorem cleanPipeline_fixed (rows : List RawRow) (s e : Option Int)
    (hsafe : ∀ r ∈ cleanPipeline rows s e, rerunSafe r = true) :
    cleanPipeline (cleanPipeline rows s e) s e = cleanPipeline rows s e := by
  have hstab : ∀ r ∈ cleanPipeline rows s e,
      coerce_types r = r ∧ infer_venue_and_clean_opponent r = r := by
    intro r hr
    obtain ⟨hd, hres, hrng, hlo, hhi, hopp, hven⟩ := cleanPipeline_mem_props hr
    have hc : coerce_types r = r := by
      refine coerce_stable r hres hopp ?_
      rcases hven with hv | ⟨u, _, _, huv⟩
      · refine ⟨[], ?_⟩
        rw [hv]
        rfl
      · exact ⟨u, huv⟩
    exact ⟨hc, infer_stable r (hsafe r hr) hopp hven⟩
  have h0 : (cleanPipeline rows s e).map coerce_types = cleanPipeline rows s e :=
    map_eq_self_of coerce_types _ (fun r hr => (hstab r hr).1)
  have h1 : (cleanPipeline rows s e).filter (fun r => r.date.isSome)
      = cleanPipeline rows s e :=
    List.filter_eq_self.mpr (fun r hr => (cleanPipeline_mem_props hr).1)
  have h2 : windowLo s (cleanPipeline rows s e) = cleanPipeline rows s e :=
    windowLo_eq_self (fun r hr => (cleanPipeline_mem_props hr).2.2.2.1)
  have h3 : windowHi e (cleanPipeline rows s e) = cleanPipeline rows s e :=
    windowHi_eq_self (fun r hr => (cleanPipeline_mem_props hr).2.2.2.2.1)
  have h4 : (cleanPipeline rows s e).filter resultWL = cleanPipeline rows s e :=
    List.filter_eq_self.mpr (fun r hr => (cleanPipeline_mem_props hr).2.1)
  have h5 : (cleanPipeline rows s e).filter goalsInRange = cleanPipeline rows s e :=
    List.filter_eq_self.mpr (fun r hr => (cleanPipeline_mem_props hr).2.2.1)
  have h6 : (cleanPipeline rows s e).filter oppHasAlpha = cleanPipeline rows s e := by
    refine List.filter_eq_self.mpr ?_
    intro r hr
    have := hsafe r hr
    unfold rerunSafe at this
    rw [Bool.and_eq_true, Bool.and_eq_true] at this
    exact this.2
  have h7 : (cleanPipeline rows s e).map infer_venue_and_clean_opponent
      = cleanPipeline rows s e :=
    map_eq_self_of infer_venue_and_clean_opponent _ (fun r hr => (hstab r hr).2)
  have h8 : dedupBy rowKey (cleanPipeline rows s e) = cleanPipeline rows s e :=
    dedupBy_eq_self rowKey _ (cleanPipeline_keys_nodup rows s e)
  have h9 : List.insertionSort rowLe (cleanPipeline rows s e) = cleanPipeline rows s e :=
    (cleanPipeline_sorted rows s e).insertionSort_eq
  show List.insertionSort rowLe (dedupBy rowKey
    (((((windowHi e (windowLo s (((cleanPipeline rows s e).map
      coerce_types).filter (fun r => r.date.isSome)))).filter resultWL).filter
        goalsInRange).filter oppHasAlpha).map infer_venue_and_clean_opponent))
    = cleanPipeline rows s e
  rw [h0, h1, h2, h3, h4, h5, h6, h7, h8, h9]

/-- C5 (counterexample): `clean_filter` is not a fixed point on its image: a
record with opponent `"at At Hawks"` cleans to opponent `"At Hawks"` (venue
`Away`), but a second run strips the `at` prefix again, yielding `"Hawks"`. -/
def exSticky : RawRow := ⟨some 1, "at At Hawks", "", "W", some 3, some 2⟩

def exSticky1 : RawRow := ⟨some 1, "At Hawks", "Away", "W", some 3, some 2⟩

def exSticky2 : RawRow := ⟨some 1, "Hawks", "Away", "W", some 3, some 2⟩

/-- C5 (counterexample): running the cleaner a second time on its own output
changes the output. -/
theorem clean_filter_not_idempotent :
    clean_filter ⟨true, [exSticky]⟩ none none = Except.ok [exSticky1]
    ∧ clean_filter ⟨true, [exSticky1]⟩ none none = Except.ok [exSticky2]
    ∧ exSticky1 ≠ exSticky2 := by
  refine ⟨rfl, rfl, by decide⟩

/-- C5 (amended): running `clean_filter` (same date-window arguments) a second
time on its own output yields the same output, provided every cleaned
opponent has no leading `'='`/space left to strip, does not itself begin with
an `at`/`vs` prefix token, and still contains a letter; otherwise a prefix is
stripped again and the output differs. -/
theorem clean_filter_fixed_point (fr : Frame) (s e : Option Int) (out : List RawRow)
    (hok : clean_filter fr s e = Except.ok out)
    (hsafe : ∀ r ∈ out, rerunSafe r = true) :
    clean_filter ⟨true, out⟩ s e = Except.ok out := by
  unfold clean_filter at hok
  by_cases hd : fr.hasDate = false
  · rw [if_pos hd] at hok
    exact absurd hok (by simp)
  · rw [if_neg hd] at hok
    have hout : out = cleanPipeline fr.rows s e := by
      injection hok with h
      exact h.symm
    subst hout
    rw [clean_filter_ok]
    rw [cleanPipeline_fixed fr.rows s e hsafe]

/-- Witness for `clean_filter_fixed_point` at a concrete stable input. -/
theorem clean_filter_fixed_point_witness :
    clean_filter ⟨true, [exRawRow]⟩ none none = Except.ok [exRawRow] :=
  clean_filter_fixed_point ⟨true, [exRawRow]⟩ none none [exRawRow] rfl (by decide)

/-- C10: because the result label is trusted and never re-derived from the
score, a record labeled `L` whose recorded `goals_for` already exceeds
`goals_against` is flipped under every non-negative swing split, including the
zero swing; hence every flip count is bounded below by the number of such
label-contradicting losses. -/
theorem contradicting_losses_lower_bound (df : List Game) (gfd gad : Int)
    (hga : ∀ g ∈ df, 0 ≤ g.goals_against) (hgf : 0 ≤ gfd) (hgd : 0 ≤ gad) :
    contradictingLosses df ≤ flip_count df gfd gad := by
  rw [flip_count_eq_filter_length]
  unfold contradictingLosses
  refine length_filter_le_of_imp df ?_
  intro g hg h
  rw [Bool.and_eq_true, beq_iff_eq, decide_eq_true_iff] at h
  unfold flipMask
  rw [Bool.and_eq_true, bne_iff_ne, decide_eq_true_iff]
  constructor
  · rw [h.1]; intro hWL; exact absurd hWL (by decide)
  · have h0 : 0 ≤ g.goals_against := hga g hg
    have hmax : max (g.goals_against - gad) 0 ≤ g.goals_against := max_le (by omega) h0
    have : g.goals_against < g.goals_for + gfd := by omega
    exact lt_of_le_of_lt hmax this

/-- Witness for `contradicting_losses_lower_bound`: a mislabeled loss is
counted even at the zero swing. -/
theorem contradicting_losses_lower_bound_witness :
    contradictingLosses [(⟨1, "Gulls", "L", 5, 2⟩ : Game)]
      ≤ flip_count [(⟨1, "Gulls", "L", 5, 2⟩ : Game)] 0 0 :=
  contradicting_losses_lower_bound [⟨1, "Gulls", "L", 5, 2⟩] 0 0
    (by intro g hg; rw [List.mem_singleton] at hg; rw [hg]; decide) (by omega) (by omega)

/-! ## Text Normalizer (`ocr_and_parse.py`, lines 13-17) -/

/-- The three explicit space replacements of `clean` (line 14):
`\xa0`, ` `, ` ` each become an ordinary space. -/
def spaceRepl (c : Char) : Char :=
  if c.toNat == 0xa0 || c.toNat == 0x2007 || c.toNat == 0x2009 then ' ' else c

/-- The dash replacements of `clean` (line 15): the en dash `U+2013` and the
em dash `U+2014` become a plain hyphen (the literals `–`/`—` and the escapes
`–`/`—` in the source are the same two characters). -/
def dashRepl (c : Char) : Char :=
  if c.toNat == 0x2013 || c.toNat == 0x2014 then '-' else c

/-- `unicodedata.normalize("NFKC", s)` is an external library call.  Modelled
here on the characters these claims touch: the Unicode space variants with a
compatibility decomposition to `U+0020` map to a space; every other character
(including the minus sign `U+2212`, which has no compatibility decomposition
in real NFKC either) is left unchanged. -/
def nfkcChar (c : Char) : List Char :=
  if (0x2000 ≤ c.toNat && c.toNat ≤ 0x200a) || c.toNat == 0xa0 || c.toNat == 0x202f ||
     c.toNat == 0x205f || c.toNat == 0x3000 then [' '] else [c]

def nfkcL (l : List Char) : List Char := l.flatMap nfkcChar

/-- `clean(s)` (lines 13-17) on the character list: space replacements, dash
replacements, NFKC, whitespace-run collapse, strip. -/
def cleanL (l : List Char) : List Char :=
  stripL (collapseL (nfkcL ((l.map spaceRepl).map dashRepl)))

/-- `clean(s)` with the `(s or "")` guard: a null (`none`) or empty input
yields the empty string. -/
def clean (s : Option String) : String := ⟨cleanL ((s.getD "").data)⟩

/-! ## Token Pattern Library (`ocr_and_parse.py`, lines 7-11) -/

def dval (c : Char) : Nat := c.toNat - 48

/-- The negative-lookahead body of `RX_SCORE` (line 11): does `\s* hyphen-or-slash \d`
match a prefix of the text after the score? -/
def scTail (l : List Char) : Bool :=
  match l.dropWhile pySpace with
  | c :: d :: _ => (c == '-' || c == '/') && isAsciiDigit d
  | _ => false

/-- The second capture group `(\d{1,2})` of `RX_SCORE` with its trailing
negative lookahead (reject when `\s* hyphen-or-slash \d` follows): greedy two digits first, backtracking to
one when the lookahead rejects. -/
def scoreG2 (g1 len1 : Nat) (l : List Char) : Option (Nat × Nat × Nat) :=
  match l with
  | a :: b :: rest =>
    if isAsciiDigit a && isAsciiDigit b then
      (if scTail rest = false then some (len1 + 2, g1, 10 * dval a + dval b)
       else if scTail (b :: rest) = false then some (len1 + 1, g1, dval a)
       else none)
    else if isAsciiDigit a then
      (if scTail (b :: rest) = false then some (len1 + 1, g1, dval a) else none)
    else none
  | [a] => if isAsciiDigit a && !scTail [] then some (len1 + 1, g1, dval a) else none
  | [] => none

/-- The literal `-` with the following `\s*` of `RX_SCORE`. -/
def scoreDash (g1 len2 : Nat) : List Char → Option (Nat × Nat × Nat)
  | c :: l2 =>
    if c = '-' then
      scoreG2 g1 (len2 + 1 + (l2.takeWhile pySpace).length) (l2.dropWhile pySpace)
    else none
  | [] => none

/-- `\s*-\s*` between the two score groups (whitespace and `-` are disjoint,
so the greedy scan is exact). -/
def scoreAfterG1 (g1 len1 : Nat) (l : List Char) : Option (Nat × Nat × Nat) :=
  scoreDash g1 (len1 + (l.takeWhile pySpace).length) (l.dropWhile pySpace)

/-- `RX_SCORE` anchored at the head of `l` (the leading lookbehind is checked
by the search loop): first group greedy two digits, backtracking to one. -/
def scoreAtPos (l : List Char) : Option (Nat × Nat × Nat) :=
  match l with
  | a :: rest =>
    if isAsciiDigit a then
      match rest with
      | b :: rest2 =>
        if isAsciiDigit b then
          (match scoreAfterG1 (10 * dval a + dval b) 2 rest2 with
           | some m => some m
           | none => scoreAfterG1 (dval a) 1 rest)
        else scoreAfterG1 (dval a) 1 rest
      | [] => scoreAfterG1 (dval a) 1 []
    else none
  | [] => none

/-- Leftmost search for `RX_SCORE = (?<!\d)(\d{1,2})\s*-\s*(\d{1,2})(?! \s* hyphen-or-slash \d )`
(line 11).  Returns `(start, length, group1, group2)`. -/
def rxScoreGo : Option Char → List Char → Nat → Option (Nat × Nat × Nat × Nat)
  | _, [], _ => none
  | prev, c :: rest, idx =>
    if (match prev with | some p => !isAsciiDigit p | none => true) then
      match scoreAtPos (c :: rest) with
      | some (len, g1, g2) => some (idx, len, g1, g2)
      | none => rxScoreGo (some c) rest (idx + 1)
    else rxScoreGo (some c) rest (idx + 1)

def rxScoreSearch (l : List Char) : Option (Nat × Nat × Nat × Nat) := rxScoreGo none l 0

/-! ### C9: the Text Normalizer -/

/-- C9 (counterexample): the Unicode minus sign `U+2212` is not a replaced
dash variant: `clean` returns it unchanged instead of a plain hyphen. -/
theorem clean_minus_counterexample :
    clean (some "−") = "−" ∧ ("−" : String) ≠ "-" := by
  exact ⟨rfl, by decide⟩

/-- Two characters with equal replacement images may be interchanged in a
`clean` input. -/
theorem cleanL_congr_char (c c' : Char)
    (h : dashRepl (spaceRepl c) = dashRepl (spaceRepl c')) (a b : List Char) :
    cleanL (a ++ c :: b) = cleanL (a ++ c' :: b) := by
  unfold cleanL
  simp only [List.map_append, List.map_cons, h]

/-- C9 (amended): the Text Normalizer is a total pure function: a null or
empty input yields the empty string; every output has all whitespace
canonicalized (only single ordinary spaces, none at either end); each
occurrence of the three replaced space variants (no-break, figure, thin
space) is equivalent to an ordinary space, and each en dash or em dash to a
plain hyphen; the Unicode minus sign is not replaced (it passes through
NFKC unchanged, as `clean_minus_counterexample` shows). -/
theorem clean_spec :
    (clean none = "" ∧ clean (some "") = "")
    ∧ (∀ s : String, canonWs (clean (some s)).data = true)
    ∧ (∀ a b : List Char, cleanL (a ++ '–' :: b) = cleanL (a ++ '-' :: b))
    ∧ (∀ a b : List Char, cleanL (a ++ '—' :: b) = cleanL (a ++ '-' :: b))
    ∧ (∀ a b : List Char, cleanL (a ++ '\xa0' :: b) = cleanL (a ++ ' ' :: b))
    ∧ (∀ a b : List Char, cleanL (a ++ ' ' :: b) = cleanL (a ++ ' ' :: b))
    ∧ (∀ a b : List Char, cleanL (a ++ ' ' :: b) = cleanL (a ++ ' ' :: b)) := by
  refine ⟨⟨rfl, rfl⟩, ?_, ?_, ?_, ?_, ?_, ?_⟩
  · intro s
    exact canon_strip_collapse _
  · exact cleanL_congr_char '–' '-' rfl
  · exact cleanL_congr_char '—' '-' rfl
  · exact cleanL_congr_char ' ' ' ' rfl
  · exact cleanL_congr_char ' ' ' ' rfl
  · exact cleanL_congr_char ' ' ' ' rfl

/-! ### C8: the score-pair recognizer -/

theorem drop_append_len {α : Type} (xs ys : List α) (n : Nat) :
    (xs ++ ys).drop (xs.length + n) = ys.drop n := by
  rw [List.drop_append]

theorem scoreG2_spec {g1 len1 : Nat} {l : List Char} {len g1' g2 : Nat}
    (h : scoreG2 g1 len1 l = some (len, g1', g2)) :
    g1' = g1 ∧ ∃ d2 rest, d2 ≠ [] ∧ d2.length ≤ 2 ∧ d2.all isAsciiDigit = true
      ∧ l = d2 ++ rest ∧ len = len1 + d2.length ∧ scTail rest = false := by
  cases l with
  | nil => exact absurd h (by simp [scoreG2])
  | cons a rest0 =>
    cases rest0 with
    | nil =>
      simp only [scoreG2] at h
      by_cases hd : (isAsciiDigit a && !scTail []) = true
      · rw [if_pos hd] at h
        simp only [Option.some.injEq, Prod.mk.injEq] at h
        rw [Bool.and_eq_true, Bool.not_eq_true'] at hd
        obtain ⟨hlen, hg, hval⟩ := h
        refine ⟨hg.symm, [a], [], by simp, by simp, by simp [hd.1], by simp, by
          simp only [List.length_singleton]; omega, hd.2⟩
      · rw [if_neg hd] at h
        exact absurd h (by simp)
    | cons b rest =>
      simp only [scoreG2] at h
      by_cases hab : (isAsciiDigit a && isAsciiDigit b) = true
      · rw [if_pos hab] at h
        rw [Bool.and_eq_true] at hab
        by_cases h1 : scTail rest = false
        · rw [if_pos h1] at h
          simp only [Option.some.injEq, Prod.mk.injEq] at h
          obtain ⟨hlen, hg, hval⟩ := h
          refine ⟨hg.symm, [a, b], rest, by simp, by simp,
            by simp [hab.1, hab.2], by simp, ?_, h1⟩
          simp only [List.length_cons, List.length_nil]
          omega
        · rw [if_neg h1] at h
          by_cases h2 : scTail (b :: rest) = false
          · rw [if_pos h2] at h
            simp only [Option.some.injEq, Prod.mk.injEq] at h
            obtain ⟨hlen, hg, hval⟩ := h
            refine ⟨hg.symm, [a], b :: rest, by simp, by simp, by simp [hab.1],
              by simp, ?_, h2⟩
            simp only [List.length_cons, List.length_nil]
            omega
          · rw [if_neg h2] at h
            exact absurd h (by simp)
      · rw [if_neg hab] at h
        by_cases ha : isAsciiDigit a = true
        · rw [if_pos ha] at h
          by_cases h2 : scTail (b :: rest) = false
          · rw [if_pos h2] at h
            simp only [Option.some.injEq, Prod.mk.injEq] at h
            obtain ⟨hlen, hg, hval⟩ := h
            refine ⟨hg.symm, [a], b :: rest, by simp, by simp, by simp [ha],
              by simp, ?_, h2⟩
            simp only [List.length_cons, List.length_nil]
            omega
          · rw [if_neg h2] at h
            exact absurd h (by simp)
        · rw [if_neg ha] at h
          exact absurd h (by simp)

theorem scoreAfterG1_spec {g1 len1 : Nat} {l : List Char} {len g1' g2 : Nat}
    (h : scoreAfterG1 g1 len1 l = some (len, g1', g2)) :
    g1' = g1 ∧ ∃ sp1 sp2 d2 rest, sp1.all pySpace = true ∧ sp2.all pySpace = true
      ∧ d2 ≠ [] ∧ d2.length ≤ 2 ∧ d2.all isAsciiDigit = true
      ∧ l = sp1 ++ '-' :: (sp2 ++ d2 ++ rest)
      ∧ len = len1 + sp1.length + 1 + sp2.length + d2.length
      ∧ scTail rest = false := by
  unfold scoreAfterG1 at h
  cases hdw : l.dropWhile pySpace with
  | nil =>
    rw [hdw] at h
    exact absurd h (by simp [scoreDash])
  | cons c l2 =>
    rw [hdw] at h
    simp only [scoreDash] at h
    by_cases hc : c = '-'
    · rw [if_pos hc] at h
      obtain ⟨hg, d2, rest, hne, hlen2, hdig, hl2, hlen, htl⟩ := scoreG2_spec h
      subst hc
      refine ⟨hg, l.takeWhile pySpace, l2.takeWhile pySpace, d2, rest, ?_, ?_, hne,
        hlen2, hdig, ?_, ?_, htl⟩
      · exact List.all_takeWhile ..
      · exact List.all_takeWhile ..
      · have hl3 : l = l.takeWhile pySpace ++ ('-' :: l2) := by
          conv_lhs => rw [← List.takeWhile_append_dropWhile pySpace l]
          rw [hdw]
        have hl4 : l2 = l2.takeWhile pySpace ++ (d2 ++ rest) := by
          conv_lhs => rw [← List.takeWhile_append_dropWhile pySpace l2]
          rw [hl2]
        conv_lhs => rw [hl3]
        conv_lhs => rw [hl4]
        rw [← List.append_assoc]
      · exact hlen
    · rw [if_neg hc] at h
      exact absurd h (by simp)

theorem scoreAtPos_spec {l : List Char} {len g1 g2 : Nat}
    (h : scoreAtPos l = some (len, g1, g2)) :
    ∃ d1 sp1 sp2 d2 rest, d1 ≠ [] ∧ d1.length ≤ 2 ∧ d1.all isAsciiDigit = true
      ∧ sp1.all pySpace = true ∧ sp2.all pySpace = true
      ∧ d2 ≠ [] ∧ d2.length ≤ 2 ∧ d2.all isAsciiDigit = true
      ∧ l = d1 ++ sp1 ++ '-' :: (sp2 ++ d2 ++ rest)
      ∧ len = d1.length + sp1.length + 1 + sp2.length + d2.length
      ∧ scTail rest = false := by
  cases l with
  | nil => exact absurd h (by simp [scoreAtPos])
  | cons a rest0 =>
    simp only [scoreAtPos] at h
    by_cases ha : isAsciiDigit a = true
    · rw [if_pos ha] at h
      cases rest0 with
      | nil =>
        have h3 : scoreAfterG1 (dval a) 1 [] = some (len, g1, g2) := h
        exact absurd h3 (by simp [scoreAfterG1, scoreDash])
      | cons b rest2 =>
        have h3 : (if isAsciiDigit b = true then
            (match scoreAfterG1 (10 * dval a + dval b) 2 rest2 with
             | some m => some m
             | none => scoreAfterG1 (dval a) 1 (b :: rest2))
          else scoreAfterG1 (dval a) 1 (b :: rest2)) = some (len, g1, g2) := h
        clear h
        by_cases hb : isAsciiDigit b = true
        · rw [if_pos hb] at h3
          cases hm : scoreAfterG1 (10 * dval a + dval b) 2 rest2 with
          | some m =>
            rw [hm] at h3
            have hme : m = (len, g1, g2) := by simpa using h3
            rw [hme] at hm
            obtain ⟨_, sp1, sp2, d2, rest, hs1, hs2, hne, hl2, hdig, hl, hlen, htl⟩ :=
              scoreAfterG1_spec hm
            refine ⟨[a, b], sp1, sp2, d2, rest, by simp, by simp, by simp [ha, hb],
              hs1, hs2, hne, hl2, hdig, ?_, by rw [hlen]; rfl, htl⟩
            rw [hl]
            simp
          | none =>
            rw [hm] at h3
            obtain ⟨_, sp1, sp2, d2, rest, hs1, hs2, hne, hl2, hdig, hl, hlen, htl⟩ :=
              scoreAfterG1_spec h3
            refine ⟨[a], sp1, sp2, d2, rest, by simp, by simp, by simp [ha], hs1, hs2,
              hne, hl2, hdig, by rw [hl]; rfl, by rw [hlen]; rfl, htl⟩
        · rw [if_neg hb] at h3
          obtain ⟨_, sp1, sp2, d2, rest, hs1, hs2, hne, hl2, hdig, hl, hlen, htl⟩ :=
            scoreAfterG1_spec h3
          refine ⟨[a], sp1, sp2, d2, rest, by simp, by simp, by simp [ha], hs1, hs2,
            hne, hl2, hdig, by rw [hl]; rfl, by rw [hlen]; rfl, htl⟩
    · rw [if_neg ha] at h
      exact absurd h (by simp)

/-- Correctness of the search loop: a reported match starts at an offset `k`
from the scan position, `RX_SCORE` matches there, and the character just
before the match (the loop-carried `prev` when `k = 0`, the input character
at `k - 1` otherwise) is not a digit — the `(?<!\\d)` lookbehind. -/
theorem rxScoreGo_spec : ∀ (l : List Char) (prev : Option Char) (idx : Nat)
    {st len g1 g2 : Nat},
    rxScoreGo prev l idx = some (st, len, g1, g2) →
    ∃ k, st = idx + k ∧ scoreAtPos (l.drop k) = some (len, g1, g2)
      ∧ ((k = 0 ∧ ∀ p, prev = some p → isAsciiDigit p = false)
         ∨ ∃ p, l[k - 1]? = some p ∧ isAsciiDigit p = false ∧ 1 ≤ k) := by
  intro l
  induction l with
  | nil =>
    intro prev idx st len g1 g2 h
    exact absurd h (by simp [rxScoreGo])
  | cons c rest ih =>
    intro prev idx st len g1 g2 h
    have step : rxScoreGo (some c) rest (idx + 1) = some (st, len, g1, g2) →
        ∃ k, st = idx + k ∧ scoreAtPos (List.drop k (c :: rest)) = some (len, g1, g2)
          ∧ ((k = 0 ∧ ∀ q, prev = some q → isAsciiDigit q = false)
             ∨ ∃ q, (c :: rest)[k - 1]? = some q ∧ isAsciiDigit q = false ∧ 1 ≤ k) := by
      intro h2
      obtain ⟨k, hst, hat, hpre⟩ := ih (some c) (idx + 1) h2
      refine ⟨k + 1, by omega, hat, Or.inr ?_⟩
      rcases hpre with ⟨hk0, hnp⟩ | ⟨p, hp, hpd, hk1⟩
      · subst hk0
        exact ⟨c, by simp, hnp c rfl, by omega⟩
      · obtain ⟨k0, rfl⟩ : ∃ k0, k = k0 + 1 := ⟨k - 1, by omega⟩
        exact ⟨p, by simpa using hp, hpd, by omega⟩
    have body : (∀ q, prev = some q → isAsciiDigit q = false) →
        (match scoreAtPos (c :: rest) with
         | some (len2, g12, g22) => some (idx, len2, g12, g22)
         | none => rxScoreGo (some c) rest (idx + 1)) = some (st, len, g1, g2) →
        ∃ k, st = idx + k ∧ scoreAtPos (List.drop k (c :: rest)) = some (len, g1, g2)
          ∧ ((k = 0 ∧ ∀ q, prev = some q → isAsciiDigit q = false)
             ∨ ∃ q, (c :: rest)[k - 1]? = some q ∧ isAsciiDigit q = false ∧ 1 ≤ k) := by
      intro hok h3
      cases hsc : scoreAtPos (c :: rest) with
      | some m =>
        obtain ⟨ml, mg1, mg2⟩ := m
        rw [hsc] at h3
        simp only [Option.some.injEq, Prod.mk.injEq] at h3
        obtain ⟨h5, h6, h7, h8⟩ := h3
        subst h5; subst h6; subst h7; subst h8
        exact ⟨0, by omega, hsc, Or.inl ⟨rfl, hok⟩⟩
      | none =>
        rw [hsc] at h3
        exact step h3
    cases prev with
    | none => exact body (by intro q hq; cases hq) h
    | some p =>
      by_cases hd : isAsciiDigit p = true
      · have h3 : rxScoreGo (some c) rest (idx + 1) = some (st, len, g1, g2) := by
          have h4 : (if (!isAsciiDigit p) = true then
              (match scoreAtPos (c :: rest) with
               | some (len2, g12, g22) => some (idx, len2, g12, g22)
               | none => rxScoreGo (some c) rest (idx + 1))
            else rxScoreGo (some c) rest (idx + 1)) = some (st, len, g1, g2) := h
          rwa [if_neg (by simp [hd])] at h4
        exact step h3
      · have hb : isAsciiDigit p = false := by simpa using hd
        have h3 : (match scoreAtPos (c :: rest) with
            | some (len2, g12, g22) => some (idx, len2, g12, g22)
            | none => rxScoreGo (some c) rest (idx + 1)) = some (st, len, g1, g2) := by
          have h4 : (if (!isAsciiDigit p) = true then
              (match scoreAtPos (c :: rest) with
               | some (len2, g12, g22) => some (idx, len2, g12, g22)
               | none => rxScoreGo (some c) rest (idx + 1))
            else rxScoreGo (some c) rest (idx + 1)) = some (st, len, g1, g2) := h
          rwa [if_pos (by simp [hb])] at h4
        refine body ?_ h3
        intro q hq
        injection hq with hq2
        subst hq2
        exact hb

/-- C8: every match the score-pair recognizer (`RX_SCORE`, used by
`parse_schedule_from_text`) reports on any input text consists of a 1-2
digit group, optional whitespace, a hyphen, optional whitespace, and a
second 1-2 digit group; the text after the match does not continue with
optional whitespace then a hyphen or slash and a digit (so no match ends
inside a date-like D-D-D or slash-delimited sequence), and the character
just before the match, when one exists, is not a digit. -/
theorem rx_score_guards (l : List Char) (st len g1 g2 : Nat)
    (h : rxScoreSearch l = some (st, len, g1, g2)) :
    ∃ pre d1 sp1 sp2 d2 rest,
      l = pre ++ d1 ++ sp1 ++ '-' :: (sp2 ++ d2 ++ rest)
      ∧ pre.length = st
      ∧ d1 ≠ [] ∧ d1.length ≤ 2 ∧ d1.all isAsciiDigit = true
      ∧ sp1.all pySpace = true ∧ sp2.all pySpace = true
      ∧ d2 ≠ [] ∧ d2.length ≤ 2 ∧ d2.all isAsciiDigit = true
      ∧ len = d1.length + sp1.length + 1 + sp2.length + d2.length
      ∧ scTail rest = false
      ∧ (st = 0 ∨ ∃ p, l[st - 1]? = some p ∧ isAsciiDigit p = false) := by
  obtain ⟨k, hst, hat, hpre⟩ := rxScoreGo_spec l none 0 h
  obtain ⟨d1, sp1, sp2, d2, rest, hne1, hl1, hd1, hs1, hs2, hne2, hl2, hd2, hdec, hlen, htl⟩ :=
    scoreAtPos_spec hat
  have hklen : k < l.length := by
    by_contra hge
    have : l.drop k = [] := List.drop_eq_nil_of_le (by omega)
    rw [this] at hdec
    exact hne1 (by cases d1 with
      | nil => rfl
      | cons x xs => simp at hdec)
  refine ⟨l.take k, d1, sp1, sp2, d2, rest, ?_, ?_, hne1, hl1, hd1, hs1, hs2,
    hne2, hl2, hd2, hlen, htl, ?_⟩
  · conv_lhs => rw [← List.take_append_drop k l]
    rw [hdec]
    simp [List.append_assoc]
  · rw [List.length_take]
    omega
  · rcases hpre with ⟨hk0, _⟩ | ⟨p, hp, hpd, _⟩
    · left; omega
    · right; exact ⟨p, by rw [hst]; simpa using hp, hpd⟩

/-- Witness for `rx_score_guards` on the input `"a 3-2!"`, where the search
reports the match `3-2` at start index 2 with length 3 and groups 3 and 2. -/
theorem rx_score_guards_witness :
    ∃ pre d1 sp1 sp2 d2 rest,
      "a 3-2!".data = pre ++ d1 ++ sp1 ++ '-' :: (sp2 ++ d2 ++ rest)
      ∧ pre.length = 2
      ∧ d1 ≠ [] ∧ d1.length ≤ 2 ∧ d1.all isAsciiDigit = true
      ∧ sp1.all pySpace = true ∧ sp2.all pySpace = true
      ∧ d2 ≠ [] ∧ d2.length ≤ 2 ∧ d2.all isAsciiDigit = true
      ∧ 3 = d1.length + sp1.length + 1 + sp2.length + d2.length
      ∧ scTail rest = false
      ∧ (2 = 0 ∨ ∃ p, "a 3-2!".data[2 - 1]? = some p ∧ isAsciiDigit p = false) :=
  rx_score_guards ("a 3-2!".data) 2 3 3 2 (by decide)

/-! ## The extractor (`ocr_and_parse.py`, lines 54-84 and 110-126) -/

/-- Python line boundaries recognized by `str.splitlines()`. -/
def isLineBreak (c : Char) : Bool :=
  c == '\n' || c == '\r' || c == '\x0b' || c == '\x0c'
  || c == '\x1c' || c == '\x1d' || c == '\x1e' || c == '\x85'
  || c == '\u2028' || c == '\u2029'

/-- Worker for `str.splitlines()`: a break ends the current line, a final
fragment without a break still forms a line, the empty string has no lines. -/
def splitlinesAux : List Char → List Char → List (List Char)
  | acc, [] => if acc.isEmpty then [] else [acc.reverse]
  | acc, '\r' :: '\n' :: rest => acc.reverse :: splitlinesAux [] rest
  | acc, c :: rest =>
    if isLineBreak c then acc.reverse :: splitlinesAux [] rest
    else splitlinesAux (c :: acc) rest

/-- Python `pg.splitlines()` (line 57). -/
def splitlinesL (l : List Char) : List (List Char) := splitlinesAux [] l

/-- Does the word-boundary assertion hold against the text that follows a
word character (next character absent or not a word character)? -/
def nextNonWord (l : List Char) : Bool :=
  match l with
  | c :: _ => !isWordChar c
  | [] => true

/-- Does the word-boundary assertion hold against the character before a
word character (no previous character, or a non-word one)? -/
def prevNonWord (prev : Option Char) : Bool :=
  match prev with
  | some p => !isWordChar p
  | none => true

/-- One of the letters of `RX_RES` (line 10), case-insensitively. -/
def isResLetter (c : Char) : Bool :=
  c.toLower == 'w' || c.toLower == 'l' || c.toLower == 't'

/-- Search loop for `RX_RES`, a word-bounded single letter: returns the match
start and the group-1 letter of the leftmost match. -/
def rxResGo : Option Char → List Char → Nat → Option (Nat × Char)
  | _, [], _ => none
  | prev, c :: rest, idx =>
    if prevNonWord prev && isResLetter c && nextNonWord rest then some (idx, c)
    else rxResGo (some c) rest (idx + 1)

/-- `RX_RES.search(text)` (line 62). -/
def rxResSearch (l : List Char) : Option (Nat × Char) := rxResGo none l 0

/-- One of the letters of the venue fallback pattern on line 74 (this one is
case-sensitive). -/
def isHanLetter (c : Char) : Bool := c == 'H' || c == 'A' || c == 'N'

/-- Search loop for the word-bounded `H`, `A` or `N` of line 74. -/
def rxHanGo : Option Char → List Char → Nat → Option (Nat × Char)
  | _, [], _ => none
  | prev, c :: rest, idx =>
    if prevNonWord prev && isHanLetter c && nextNonWord rest then some (idx, c)
    else rxHanGo (some c) rest (idx + 1)

/-- The venue-letter search of line 74. -/
def rxHanSearch (l : List Char) : Option (Nat × Char) := rxHanGo none l 0

/-- A one-or-two digit group that must be followed by a slash: with a longer
digit run both greedy lengths leave a digit in front of the slash, so the
group matches exactly when the whole run has length one or two. -/
def eatDigits12 (l : List Char) : Option (Nat × List Char) :=
  let ds := l.takeWhile isAsciiDigit
  if 1 ≤ ds.length ∧ ds.length ≤ 2 then some (ds.length, l.drop ds.length) else none

/-- `RX_DATE_NUM` (line 8) anchored at the head of `l`, returning the match
length: digits, slash, digits, slash, a two-to-four digit year whose run must
end at a word boundary. -/
def dateNumAt (l : List Char) : Option Nat :=
  match eatDigits12 l with
  | none => none
  | some (n1, r1) =>
    match r1 with
    | '/' :: r2 =>
      (match eatDigits12 r2 with
       | none => none
       | some (n2, r3) =>
         match r3 with
         | '/' :: r4 =>
           let ds := r4.takeWhile isAsciiDigit
           if (2 ≤ ds.length ∧ ds.length ≤ 4) ∧ nextNonWord (r4.drop ds.length) = true then
             some (n1 + 1 + n2 + 1 + ds.length)
           else none
         | _ => none)
    | _ => none

/-- Search loop for `RX_DATE_NUM`: the first character of a match is a digit,
so the leading word boundary amounts to a non-word previous character. -/
def rxDateNumGo : Option Char → List Char → Nat → Option (Nat × Nat)
  | _, [], _ => none
  | prev, c :: rest, idx =>
    if prevNonWord prev then
      match dateNumAt (c :: rest) with
      | some len => some (idx, len)
      | none => rxDateNumGo (some c) rest (idx + 1)
    else rxDateNumGo (some c) rest (idx + 1)

/-- `RX_DATE_NUM.search(text)` (line 63): start and length of the match. -/
def rxDateNumSearch (l : List Char) : Option (Nat × Nat) := rxDateNumGo none l 0

/-- The month alternatives of the `MONTH` pattern (line 7) in backtracking
order: regex alternation order, and within each alternative the greedy
optional suffix first (for `Sep` the suffix alternation tries `t`, then
`tember`, then nothing). -/
def monthCands : List (List Char) :=
  ["january".data, "jan".data, "february".data, "feb".data,
   "march".data, "mar".data, "april".data, "apr".data, "may".data,
   "june".data, "jun".data, "july".data, "jul".data,
   "august".data, "aug".data, "sept".data, "september".data, "sep".data,
   "october".data, "oct".data, "november".data, "nov".data,
   "december".data, "dec".data]

/-- Case-insensitive literal prefix test against a lowercase pattern. -/
def startsWithLower : List Char → List Char → Bool
  | [], _ => true
  | _ :: _, [] => false
  | p :: ps, c :: cs => (c.toLower == p) && startsWithLower ps cs

/-- The optional year part of `RX_DATE_NAME` after the day digits: a comma,
whitespace, exactly four year digits ending at a word boundary — greedy, but
dropped again when the boundary fails (a comma is not a word character, so
the boundary after the day then holds).  Returns the consumed length, `none`
when the boundary right after the day fails. -/
def dayTail (r : List Char) : Option Nat :=
  match r with
  | ',' :: r2 =>
    let sp := r2.takeWhile pySpace
    let r3 := r2.drop sp.length
    let ys := r3.takeWhile isAsciiDigit
    if ys.length = 4 ∧ nextNonWord (r3.drop 4) = true then some (1 + sp.length + 4)
    else some 0
  | c :: _ => if isWordChar c then none else some 0
  | [] => some 0

/-- After the month (and optional dot) of `RX_DATE_NAME`: required
whitespace, a one-or-two digit day taking its whole digit run, then
`dayTail`.  Returns the consumed length. -/
def dateNameTail (r : List Char) : Option Nat :=
  let sp := r.takeWhile pySpace
  if sp.length = 0 then none
  else
    let r2 := r.drop sp.length
    let ds := r2.takeWhile isAsciiDigit
    if 1 ≤ ds.length ∧ ds.length ≤ 2 then
      match dayTail (r2.drop ds.length) with
      | some t => some (sp.length + ds.length + t)
      | none => none
    else none

/-- The greedy optional dot after the month name, backtracking to no dot. -/
def dateNameDot (r : List Char) : Option Nat :=
  match r with
  | '.' :: r2 =>
    (match dateNameTail r2 with
     | some t => some (1 + t)
     | none => dateNameTail r)
  | _ => dateNameTail r

/-- Try the month alternatives in order at the head of `l`. -/
def dateNameCand : List (List Char) → List Char → Option Nat
  | [], _ => none
  | m :: ms, l =>
    if startsWithLower m l then
      match dateNameDot (l.drop m.length) with
      | some t => some (m.length + t)
      | none => dateNameCand ms l
    else dateNameCand ms l

/-- `RX_DATE_NAME` (line 9) anchored at the head of `l`: match length. -/
def dateNameAt (l : List Char) : Option Nat := dateNameCand monthCands l

/-- Search loop for `RX_DATE_NAME`: a match starts with a month letter, a
word character, so the leading boundary needs a non-word previous character. -/
def rxDateNameGo : Option Char → List Char → Nat → Option (Nat × Nat)
  | _, [], _ => none
  | prev, c :: rest, idx =>
    if prevNonWord prev then
      match dateNameAt (c :: rest) with
      | some len => some (idx, len)
      | none => rxDateNameGo (some c) rest (idx + 1)
    else rxDateNameGo (some c) rest (idx + 1)

/-- `RX_DATE_NAME.search(text)` (line 63): start and length of the match. -/
def rxDateNameSearch (l : List Char) : Option (Nat × Nat) := rxDateNameGo none l 0

/-- Python substring containment (the `in` tests on line 70-72). -/
def containsSub : List Char → List Char → Bool
  | pat, [] => pat.isEmpty
  | pat, c :: rest => pat.isPrefixOf (c :: rest) || containsSub pat rest

/-- The alternatives of the opponent-prefix pattern on line 78 in
backtracking order (`at`, then `vs` with its greedy dot, then `neutral`). -/
def leadTokCands : List (List Char) := ["at".data, "vs.".data, "vs".data, "neutral".data]

/-- Apply the anchored substitution of line 78: if some alternative followed
by at least one whitespace character matches at the head (case-insensitively),
remove that one occurrence. -/
def stripLeadTokGo : List (List Char) → List Char → List Char
  | [], l => l
  | t :: ts, l =>
    if startsWithLower t l then
      (let r := l.drop t.length
       let sp := r.takeWhile pySpace
       if 1 ≤ sp.length then r.drop sp.length else stripLeadTokGo ts l)
    else stripLeadTokGo ts l

def stripLeadTok (l : List Char) : List Char := stripLeadTokGo leadTokCands l

/-- The character class of the token fallback pattern on line 80. -/
def isTokChar (c : Char) : Bool :=
  isAsciiAlpha c || isAsciiDigit c || c == ' ' || c == '.' || c == '&'
  || c == Char.ofNat 39 || c == '(' || c == ')' || c == '/' || c == '-'

/-- `re.findall` of the token pattern on line 80: non-overlapping leftmost
matches, each a letter followed by a greedy run of at least two class
characters. -/
def findTokens (l : List Char) : List (List Char) :=
  match l with
  | [] => []
  | c :: rest =>
    if isAsciiAlpha c then
      (let run := rest.takeWhile isTokChar
       if 2 ≤ run.length then (c :: run) :: findTokens (rest.drop run.length)
       else findTokens rest)
    else findTokens rest
  termination_by l.length
  decreasing_by
    all_goals simp only [List.length_drop, List.length_cons]
    all_goals omega

/-- Python `max(alpha, key=len)` on a nonempty list: the first element of
maximal length (a later element replaces the running maximum only when
strictly longer). -/
def maxByLen (t : List Char) (ts : List (List Char)) : List Char :=
  ts.foldl (fun acc u => if acc.length < u.length then u else acc) t

/-- One candidate row of `parse_schedule_from_text` (lines 82-83). -/
structure CandRow where
  page : Nat
  date_raw : String
  opponent : String
  venue : String
  result : String
  goals_for : Nat
  goals_against : Nat
  raw : String
deriving DecidableEq, Repr

/-- The venue inference of lines 69-75: substring tests on the lowercased,
space-padded text, falling back to a word-bounded `H`, `A` or `N`. -/
def venueOf (text : List Char) : String :=
  let lo := ' ' :: (text.map Char.toLower) ++ [' ']
  if containsSub " neutral ".data lo then "Neutral"
  else if containsSub " at ".data lo then "Away"
  else if containsSub " vs ".data lo then "Home"
  else
    match rxHanSearch text with
    | some (_, c) =>
      if c = 'H' then "Home" else if c = 'A' then "Away"
      else if c = 'N' then "Neutral" else ""
    | none => ""

/-- Lines 61-83 for one candidate text: skip empty text, require a result, a
score and a date match, then assemble the row (dates from `RX_DATE_NUM`
first, opponent from the span between the date end and the earlier of the
result and score starts, with the token fallback when shorter than two
characters). -/
def rowFromText (pg : Nat) (text : List Char) : Option CandRow :=
  if text = [] then none
  else
    match rxResSearch text, rxScoreSearch text,
          (match rxDateNumSearch text with
           | some dn => some dn
           | none => rxDateNameSearch text) with
    | some (res_st, res_c), some (sc_st, _, g1, g2), some (d_st, d_len) =>
      let date_end := d_st + d_len
      let end_pos := min res_st sc_st
      let opp0 := stripSetL [' ', '-', ':', '|'] (stripLeadTok ((text.take end_pos).drop date_end))
      let opponent : List Char :=
        if opp0.length < 2 then
          (match findTokens text with
           | [] => []
           | t :: ts => stripL (maxByLen t ts))
        else opp0
      some ⟨pg, ⟨(text.drop d_st).take d_len⟩, ⟨opponent⟩, venueOf text,
            ⟨[res_c.toUpper]⟩, g1, g2, ⟨text⟩⟩
    | _, _, _ => none

/-- The candidate loop of lines 59-83 over the cleaned lines of one page:
each line is tried alone and concatenated with the next line through a
space; the last line, lacking a successor, is tried twice. -/
def pageRows (pg : Nat) : List (List Char) → List CandRow
  | [] => []
  | l1 :: rest =>
    (rowFromText pg l1).toList ++
      (rowFromText pg (match rest with
        | l2 :: _ => l1 ++ ' ' :: l2
        | [] => l1)).toList ++
      pageRows pg rest

/-- The page loop of line 56 (`enumerate(pages, 1)`), cleaning each line. -/
def pagesRows : Nat → List String → List CandRow
  | _, [] => []
  | idx, p :: ps => pageRows idx ((splitlinesL p.data).map cleanL) ++ pagesRows (idx + 1) ps

/-- `parse_schedule_from_text(pages)` (lines 54-84): candidate rows of all
pages, then `drop_duplicates()` with no subset, which deduplicates on whole
rows only (raw text and page included) and keeps first occurrences. -/
def parse_schedule_from_text (pages : List String) : List CandRow :=
  dedupBy id (pagesRows 1 pages)

/-- Digits of a nonempty all-digit character list as a number. -/
def digitsToNat (l : List Char) : Option Nat :=
  if l ≠ [] ∧ l.all isAsciiDigit = true then
    some (l.foldl (fun a c => 10 * a + dval c) 0)
  else none

/-- Documented partial model of `pd.to_datetime(-, errors="coerce")`
(line 114) on the `date_raw` strings the extractor emits, as the encoding
`year * 10000 + month * 100 + day`: the slash-separated numeric shape is
parsed month-first with a two-digit year resolved below 70 to the 2000s and
otherwise to the 1900s; every other string (the named-month shape included)
is treated as unparseable (`NaT`, row dropped at `dropna`).  Window bounds
(`pd.Timestamp`) use the same encoding. -/
def pdParseDate (s : String) : Option Int :=
  match (s.data.splitOn '/').map digitsToNat with
  | [some m, some d, some y] =>
    if 1 ≤ m ∧ m ≤ 12 ∧ 1 ≤ d ∧ d ≤ 31 then
      let y2 : Nat := if y < 100 then (if y < 70 then 2000 + y else 1900 + y) else y
      some ((y2 : Int) * 10000 + m * 100 + d)
    else none
  | _ => none

/-- One row after the date conversion of line 114, with the columns the
extractor writes (line 122). -/
structure FinalRow where
  date : Int
  opponent : String
  venue : String
  result : String
  goals_for : Nat
  goals_against : Nat
  page : Nat
  raw : String
deriving DecidableEq, Repr

def finalLe (a b : FinalRow) : Prop := a.date ≤ b.date

instance : DecidableRel finalLe := fun a b => Int.decLe a.date b.date

/-- A candidate row whose date parsed to `d`. -/
def finalOfCand (r : CandRow) (d : Int) : FinalRow :=
  ⟨d, r.opponent, r.venue, r.result, r.goals_for, r.goals_against, r.page, r.raw⟩

/-- Lines 114-115: parse the raw dates and drop the rows left `NaT`. -/
def extractStage1 (pages : List String) : List FinalRow :=
  (parse_schedule_from_text pages).filterMap
    (fun r => (pdParseDate r.date_raw).map (finalOfCand r))

/-- Line 116: the season-start filter, skipped when no bound is given. -/
def fWindowLo (start : Option Int) (l : List FinalRow) : List FinalRow :=
  match start with
  | some s => l.filter (fun r => decide (s ≤ r.date))
  | none => l

/-- Line 117: the season-end filter, skipped when no bound is given. -/
def fWindowHi (stop : Option Int) (l : List FinalRow) : List FinalRow :=
  match stop with
  | some e => l.filter (fun r => decide (r.date ≤ e))
  | none => l

/-- Line 118: `between(1, 35)` on both goal columns. -/
def fGoalsInRange (r : FinalRow) : Bool :=
  decide (1 ≤ r.goals_for ∧ r.goals_for ≤ 35 ∧ 1 ≤ r.goals_against ∧ r.goals_against ≤ 35)

/-- Line 119: `isin(["W","L","T"])`. -/
def resultWLT (r : FinalRow) : Bool := r.result == "W" || r.result == "L" || r.result == "T"

/-- The post-parse cleanup of `main` (lines 110-126): date conversion and
drop, date window, goal range, result filter, sort by date. -/
def extract_games (pages : List String) (start stop : Option Int) : List FinalRow :=
  List.insertionSort finalLe
    (((fWindowHi stop (fWindowLo start (extractStage1 pages))).filter fGoalsInRange).filter
      resultWLT)

theorem fWindowLo_subset (s : Option Int) (l : List FinalRow) : fWindowLo s l ⊆ l := by
  cases s with
  | none => exact fun r h => h
  | some a => exact (List.filter_sublist l).subset

theorem fWindowHi_subset (e : Option Int) (l : List FinalRow) : fWindowHi e l ⊆ l := by
  cases e with
  | none => exact fun r h => h
  | some a => exact (List.filter_sublist l).subset

/-- Elimination of the cleaning-side goal-range test. -/
theorem goalsInRange_elim {r : RawRow} (h : goalsInRange r = true) :
    ∃ a b : Int, r.goals_for = some a ∧ r.goals_against = some b
      ∧ 1 ≤ a ∧ a ≤ 35 ∧ 1 ≤ b ∧ b ≤ 35 := by
  unfold goalsInRange at h
  cases hgf : r.goals_for with
  | none =>
    rw [hgf] at h
    cases hga : r.goals_against with
    | none => rw [hga] at h; simp at h
    | some b => rw [hga] at h; simp at h
  | some a =>
    rw [hgf] at h
    cases hga : r.goals_against with
    | none => rw [hga] at h; simp at h
    | some b =>
      rw [hga] at h
      simp only [decide_eq_true_eq] at h
      exact ⟨a, b, rfl, rfl, h.1, h.2.1, h.2.2.1, h.2.2.2⟩

/-! ### C4: deduplication, and C7: goal-range enforcement -/

/-- The single extracted row of the concrete one-game page used as a witness
input below. -/
def exFinalRow : FinalRow := ⟨20240102, "Hawks", "", "W", 3, 2, 1, "1/2/2024 Hawks W 3-2"⟩

/-- C4 (counterexample): on a page whose entry wraps onto a second line, the
extractor emits overlapping single-line and line-pair candidates that agree
on the domain tuple (date, opponent, goals, result) but differ in raw text;
`drop_duplicates()` compares whole rows, so both survive and the extraction
output carries the same tuple twice. -/
theorem extraction_dedup_counterexample :
    ((extract_games ["1/2/2024 Hawks W 3-2\nx"] none none).map
        (fun r => (r.date, r.opponent, r.goals_for, r.goals_against, r.result)))
      = [(20240102, "Hawks", 3, 2, "W"), (20240102, "Hawks", 3, 2, "W")] := by
  decide

/-- C4 (amended): the cleaning pipeline deduplicates on the domain tuple
(date, opponent, goals_for, goals_against, result), so its output holds at
most one record per tuple; the extraction pipeline deduplicates only on
whole-row equality (page and raw text included), so its output never repeats
a full row, but overlapping single-line and line-pair candidates that agree
on the tuple while differing in raw text all remain. -/
theorem dedup_spec :
    (∀ (fr : Frame) (s e : Option Int) (out : List RawRow),
        clean_filter fr s e = Except.ok out → (out.map rowKey).Nodup)
    ∧ ∀ pages : List String, (parse_schedule_from_text pages).Nodup := by
  constructor
  · intro fr s e out h
    unfold clean_filter at h
    by_cases hd : fr.hasDate = false
    · rw [if_pos hd] at h
      exact absurd h (by simp)
    · rw [if_neg hd] at h
      injection h with h2
      rw [← h2]
      exact cleanPipeline_keys_nodup fr.rows s e
  · intro pages
    have h := dedupBy_keys_nodup id (pagesRows 1 pages)
    rwa [List.map_id] at h

/-- Witness for `dedup_spec`: a one-row frame cleans to a single record with
a duplicate-free tuple list, and a concrete two-line page parses to a
duplicate-free candidate list. -/
theorem dedup_spec_witness :
    ([exRawRow].map rowKey).Nodup
    ∧ (parse_schedule_from_text ["1/2/2024 Hawks W 3-2\nx"]).Nodup :=
  ⟨dedup_spec.1 ⟨true, [exRawRow]⟩ none none [exRawRow] rfl,
   dedup_spec.2 ["1/2/2024 Hawks W 3-2\nx"]⟩

/-- C7: in both pipelines every record of the cleaned output has both goal
fields inside the inclusive range 1 to 35, and the goal values equal those
of an input record untouched (dropped when out of range, never clamped):
the cleaning side surfaces them as present optional values in range and
traceable to an input row, the extraction side as plain values in range and
traceable to a parsed candidate row. -/
theorem range_enforcement :
    (∀ (fr : Frame) (s e : Option Int) (out : List RawRow),
        clean_filter fr s e = Except.ok out → ∀ r ∈ out,
        (∃ a b : Int, r.goals_for = some a ∧ r.goals_against = some b
          ∧ 1 ≤ a ∧ a ≤ 35 ∧ 1 ≤ b ∧ b ≤ 35)
        ∧ ∃ r0 ∈ fr.rows, r.goals_for = r0.goals_for ∧ r.goals_against = r0.goals_against)
    ∧ ∀ (pages : List String) (s e : Option Int), ∀ r ∈ extract_games pages s e,
        (1 ≤ r.goals_for ∧ r.goals_for ≤ 35 ∧ 1 ≤ r.goals_against ∧ r.goals_against ≤ 35)
        ∧ ∃ c ∈ parse_schedule_from_text pages,
            r.goals_for = c.goals_for ∧ r.goals_against = c.goals_against := by
  constructor
  · intro fr s e out h r hr
    unfold clean_filter at h
    by_cases hd : fr.hasDate = false
    · rw [if_pos hd] at h
      exact absurd h (by simp)
    · rw [if_neg hd] at h
      injection h with h2
      rw [← h2] at hr
      obtain ⟨_, _, hgr, _⟩ := cleanPipeline_mem_props hr
      obtain ⟨r0, hr0, hre, _⟩ := mem_cleanPipeline hr
      refine ⟨goalsInRange_elim hgr, r0, hr0, ?_, ?_⟩
      · rw [hre, (infer_fields (coerce_types r0)).2.2.1]
        rfl
      · rw [hre, (infer_fields (coerce_types r0)).2.2.2]
        rfl
  · intro pages s e r hr
    unfold extract_games at hr
    rw [List.mem_insertionSort] at hr
    have h5 := List.mem_filter.mp hr
    have h4 := List.mem_filter.mp h5.1
    constructor
    · have hg := h4.2
      unfold fGoalsInRange at hg
      simpa using hg
    · have h1 : r ∈ extractStage1 pages :=
        fWindowLo_subset s _ (fWindowHi_subset e _ h4.1)
      unfold extractStage1 at h1
      obtain ⟨c, hc, hcc⟩ := List.mem_filterMap.mp h1
      refine ⟨c, hc, ?_⟩
      cases hpd : pdParseDate c.date_raw with
      | none => rw [hpd] at hcc; simp at hcc
      | some d =>
        rw [hpd] at hcc
        have he : finalOfCand c d = r := by simpa using hcc
        rw [← he]
        exact ⟨rfl, rfl⟩

/-- Witness for `range_enforcement` on a one-row frame and a one-game page. -/
theorem range_enforcement_witness :
    ((∃ a b : Int, exRawRow.goals_for = some a ∧ exRawRow.goals_against = some b
        ∧ 1 ≤ a ∧ a ≤ 35 ∧ 1 ≤ b ∧ b ≤ 35)
      ∧ ∃ r0 ∈ (Frame.mk true [exRawRow]).rows,
          exRawRow.goals_for = r0.goals_for ∧ exRawRow.goals_against = r0.goals_against)
    ∧ ((1 ≤ exFinalRow.goals_for ∧ exFinalRow.goals_for ≤ 35
        ∧ 1 ≤ exFinalRow.goals_against ∧ exFinalRow.goals_against ≤ 35)
      ∧ ∃ c ∈ parse_schedule_from_text ["1/2/2024 Hawks W 3-2"],
          exFinalRow.goals_for = c.goals_for ∧ exFinalRow.goals_against = c.goals_against) :=
  ⟨range_enforcement.1 ⟨true, [exRawRow]⟩ none none [exRawRow] rfl exRawRow (by decide),
   range_enforcement.2 ["1/2/2024 Hawks W 3-2"] none none exFinalRow (by decide)⟩

end Task5
